import Mathlib

/-!
Verification development for the wow.export.UE5 terrain-export core.

The JavaScript source is shallowly embedded in Lean 4:

* `FaceCuller.cullBackFaces` (back-face culling / triangle deduplication),
* `R16Writer.setHeightDataFromChunks` (sparse-to-dense heightmap build),
* `R16Writer.write` (16-bit normalisation and little-endian serialisation),
* `collectGameObjects` (game-object index build and query),
* `exportSelectedMap` (two-pass tile-export orchestrator).

JavaScript numbers are idealised as exact rationals.  The only place where
the source manipulates an irrational quantity is the unit face normal
(`sqrt` of a rational); the embedding never materialises it and instead
expresses each comparison the source performs on unit normals as the
algebraically equivalent comparison on the raw cross-product normal and its
squared length, which keeps every definition inside `ℚ` and decidable.
-/

set_option exponentiation.threshold 200000
set_option maxRecDepth 20000

namespace FaceCuller

/-- A 3D vector of rational coordinates. -/
abbrev Vec3 := ℚ × ℚ × ℚ

/-- Read vertex `i` from the flat vertex buffer `[x, y, z, x, y, z, ...]`.
The source only dereferences after its own bounds check, so the default `0`
returned for an out-of-range access is never observable. -/
def vtx (vertices : List ℚ) (i : ℕ) : Vec3 :=
  (vertices.getD (i * 3) 0, vertices.getD (i * 3 + 1) 0, vertices.getD (i * 3 + 2) 0)

/-- Componentwise difference `a - b` of two vectors. -/
def sub3 (a b : Vec3) : Vec3 :=
  (a.1 - b.1, a.2.1 - b.2.1, a.2.2 - b.2.2)

/-- Cross product, exactly as computed in the source. -/
def cross (e1 e2 : Vec3) : Vec3 :=
  (e1.2.1 * e2.2.2 - e1.2.2 * e2.2.1,
   e1.2.2 * e2.1 - e1.1 * e2.2.2,
   e1.1 * e2.2.1 - e1.2.1 * e2.1)

/-- Squared euclidean length of a vector. -/
def normSq (n : Vec3) : ℚ :=
  n.1 * n.1 + n.2.1 * n.2.1 + n.2.2 * n.2.2

/-- Dot product of two vectors. -/
def dot3 (a b : Vec3) : ℚ :=
  a.1 * b.1 + a.2.1 * b.2.1 + a.2.2 * b.2.2

/-- The raw (unnormalised) face normal of the triangle `(i0, i1, i2)`:
cross product of the two edge vectors taken from vertex 0. -/
def triNormal (vertices : List ℚ) (i0 i1 i2 : ℕ) : Vec3 :=
  cross (sub3 (vtx vertices i1) (vtx vertices i0)) (sub3 (vtx vertices i2) (vtx vertices i0))

/-- The degeneracy test of the source, `normalLength < 1e-6`, phrased on the
squared length: for a nonnegative length, `len < 1e-6` iff `len^2 < 1e-12`. -/
def degenerate (nsq : ℚ) : Prop :=
  nsq < 1 / 1000000000000

instance (nsq : ℚ) : Decidable (degenerate nsq) := by
  unfold degenerate; infer_instance

/-- The source condition `dot(n1/|n1|, n2/|n2|) < -0.8` on unit normals,
phrased on the raw normals `n1, n2` and their squared lengths `s1, s2`
(both positive, since the degeneracy test was passed):
`d / sqrt(s1 * s2) < -4/5` iff `d < 0` and `25 * d^2 > 16 * s1 * s2`. -/
def dotBelowNeg08 (n1 : Vec3) (s1 : ℚ) (n2 : Vec3) (s2 : ℚ) : Prop :=
  dot3 n1 n2 < 0 ∧ 16 * s1 * s2 < 25 * dot3 n1 n2 ^ 2

instance (n1 : Vec3) (s1 : ℚ) (n2 : Vec3) (s2 : ℚ) :
    Decidable (dotBelowNeg08 n1 s1 n2 s2) := by
  unfold dotBelowNeg08; infer_instance

/-- The forward-facing score `nz*4 + ny*2 + nx` of the source, taken on a raw
normal; the score of the unit normal is this value divided by the length. -/
def rawScore (n : Vec3) : ℚ :=
  n.2.2 * 4 + n.2.1 * 2 + n.1

/-- The source comparison `currentScore > existingScore` between unit-normal
scores, phrased on raw normals and squared lengths: with `a = rawScore nNew`,
`b = rawScore nOld`, it decides `a / sqrt sNew > b / sqrt sOld` by sign
analysis and squaring (`sNew, sOld > 0`). -/
def scoreGt (nNew : Vec3) (sNew : ℚ) (nOld : Vec3) (sOld : ℚ) : Prop :=
  (0 ≤ rawScore nNew ∧ rawScore nOld < 0) ∨
  (0 ≤ rawScore nNew ∧ 0 ≤ rawScore nOld ∧
    rawScore nOld ^ 2 * sNew < rawScore nNew ^ 2 * sOld) ∨
  (rawScore nNew < 0 ∧ rawScore nOld < 0 ∧
    rawScore nNew ^ 2 * sOld < rawScore nOld ^ 2 * sNew)

instance (nNew : Vec3) (sNew : ℚ) (nOld : Vec3) (sOld : ℚ) :
    Decidable (scoreGt nNew sNew nOld sOld) := by
  unfold scoreGt; infer_instance

/-- The order-independent triangle identity key: the sorted index triple
(the source sorts the three indices numerically and joins them). -/
def sort3 (a b c : ℕ) : ℕ × ℕ × ℕ :=
  (min a (min b c), a + b + c - min a (min b c) - max a (max b c), max a (max b c))

/-- A pending candidate in the triangle map: its index triple, its raw
cross-product normal, and the squared length of that normal (the source
stores the unit normal instead; the pair `(normal, nsq)` carries the same
information without leaving `ℚ`). -/
structure Candidate where
  indices : ℕ × ℕ × ℕ
  normal : Vec3
  nsq : ℚ
deriving DecidableEq

/-- State of the culling scan: the indices emitted so far and the pending
candidate map (a JS `Map` in insertion order, modelled as an association
list; `set` on an existing key keeps its position). -/
structure CullState where
  culled : List ℕ
  tmap : List ((ℕ × ℕ × ℕ) × Candidate)
deriving DecidableEq

/-- First-match lookup in the candidate map. -/
def lookupKey (k : ℕ × ℕ × ℕ) : List ((ℕ × ℕ × ℕ) × Candidate) → Option Candidate
  | [] => none
  | (k', c) :: r => if k' = k then some c else lookupKey k r

/-- In-place replacement of the value stored under an existing key,
preserving the insertion order of the JS `Map`. -/
def updateKey (k : ℕ × ℕ × ℕ) (c : Candidate) :
    List ((ℕ × ℕ × ℕ) × Candidate) → List ((ℕ × ℕ × ℕ) × Candidate)
  | [] => []
  | (k', c') :: r => if k' = k then (k', c) :: r else (k', c') :: updateKey k c r

/-- One iteration of the triangle loop of `cullBackFaces`, processing the
index triple `(i0, i1, i2)`. -/
def cullStep (vertices : List ℚ) (st : CullState) (i0 i1 i2 : ℕ) : CullState :=
  if i0 * 3 + 2 ≥ vertices.length ∨ i1 * 3 + 2 ≥ vertices.length ∨
      i2 * 3 + 2 ≥ vertices.length then
    { st with culled := st.culled ++ [i0, i1, i2] }
  else if degenerate (normSq (triNormal vertices i0 i1 i2)) then st
  else
    match lookupKey (sort3 i0 i1 i2) st.tmap with
    | some cand =>
      if dotBelowNeg08 (triNormal vertices i0 i1 i2) (normSq (triNormal vertices i0 i1 i2))
          cand.normal cand.nsq then
        if scoreGt (triNormal vertices i0 i1 i2) (normSq (triNormal vertices i0 i1 i2))
            cand.normal cand.nsq then
          { st with tmap := (updateKey (sort3 i0 i1 i2)
              (Candidate.mk (i0, i1, i2) (triNormal vertices i0 i1 i2)
                (normSq (triNormal vertices i0 i1 i2))) st.tmap) }
        else st
      else { st with culled := st.culled ++ [i0, i1, i2] }
    | none =>
      { st with tmap := (st.tmap ++ [(sort3 i0 i1 i2,
          Candidate.mk (i0, i1, i2) (triNormal vertices i0 i1 i2)
            (normSq (triNormal vertices i0 i1 i2)))]) }

/-- The scan over the flat index list, three indices at a time.  On input
whose length is not a multiple of three the source reads past the end of the
array and propagates `NaN`; that regime is outside the modelled domain and
every property below restricts to inputs of length divisible by three, where
the catch-all branch is only reached with an empty remainder. -/
def cullLoop (vertices : List ℚ) : List ℕ → CullState → CullState
  | i0 :: i1 :: i2 :: rest, st => cullLoop vertices rest (cullStep vertices st i0 i1 i2)
  | _, st => st

/-- The embedded `FaceCuller.cullBackFaces(triangleIndices, vertices)`:
runs the scan and then appends the surviving candidates of the triangle map
in insertion order. -/
def cullBackFaces (triangleIndices : List ℕ) (vertices : List ℚ) : List ℕ :=
  if triangleIndices = [] then triangleIndices
  else
    let st := cullLoop vertices triangleIndices ⟨[], []⟩
    st.culled ++ st.tmap.flatMap fun e => [e.2.indices.1, e.2.indices.2.1, e.2.indices.2.2]

/-- Grouping of a flat index list into consecutive triples. -/
def triples : List ℕ → List (ℕ × ℕ × ℕ)
  | a :: b :: c :: r => (a, b, c) :: triples r
  | _ => []

/-- The triples already owned by a scan state: the emitted ones followed by
the pending candidates. -/
def stateTriples (st : CullState) : List (ℕ × ℕ × ℕ) :=
  triples st.culled ++ st.tmap.map fun e => e.2.indices

theorem triples_append : ∀ l1 l2 : List ℕ, l1.length % 3 = 0 →
    triples (l1 ++ l2) = triples l1 ++ triples l2
  | [], _, _ => by simp [triples]
  | [_], _, h => by simp at h
  | [_, _], _, h => by simp at h
  | _ :: _ :: _ :: r, l2, h => by
    have hr : r.length % 3 = 0 := by simp [List.length_cons] at h; omega
    simp [List.cons_append, triples, triples_append r l2 hr]

theorem triples_flatMapTri {α : Type} (f : α → ℕ × ℕ × ℕ) : ∀ l : List α,
    triples (l.flatMap fun e => [(f e).1, (f e).2.1, (f e).2.2]) = l.map f
  | [] => rfl
  | t :: r => by
    rw [List.flatMap_cons]
    show triples ((f t).1 :: (f t).2.1 :: (f t).2.2 ::
      (r.flatMap fun e => [(f e).1, (f e).2.1, (f e).2.2])) = (t :: r).map f
    rw [triples, triples_flatMapTri f r, List.map_cons]

theorem length_flatMapTri {α : Type} (f : α → ℕ × ℕ × ℕ) : ∀ l : List α,
    (l.flatMap fun e => [(f e).1, (f e).2.1, (f e).2.2]).length = 3 * l.length
  | [] => rfl
  | t :: r => by
    simp only [List.flatMap_cons, List.length_append, length_flatMapTri f r,
      List.length_cons, List.length_nil, List.length_map]
    ring

theorem length_updateKey (k : ℕ × ℕ × ℕ) (c : Candidate) :
    ∀ l, (updateKey k c l).length = l.length
  | [] => rfl
  | (k', c') :: r => by
    by_cases h : k' = k <;> simp [updateKey, h, length_updateKey k c r]

theorem mem_updateKey (k : ℕ × ℕ × ℕ) (c : Candidate) :
    ∀ l e, e ∈ updateKey k c l → e ∈ l ∨ e = (k, c)
  | [], e, he => by simp [updateKey] at he
  | (k', c') :: r, e, he => by
    by_cases h : k' = k
    · simp only [updateKey, if_pos h] at he
      rcases List.mem_cons.1 he with he | he
      · exact Or.inr (by rw [he, h])
      · exact Or.inl (List.mem_cons_of_mem _ he)
    · simp only [updateKey, if_neg h] at he
      rcases List.mem_cons.1 he with he | he
      · exact Or.inl (by simp [he])
      · rcases mem_updateKey k c r e he with h1 | h1
        · exact Or.inl (List.mem_cons_of_mem _ h1)
        · exact Or.inr h1

/-- Shape analysis of one scan step: it either emits the triple as-is,
leaves the state unchanged, replaces the pending candidate under the key of
the triple, or records the triple as a new pending candidate. -/
theorem cullStep_shape (vertices : List ℚ) (st : CullState) (i0 i1 i2 : ℕ) :
    cullStep vertices st i0 i1 i2 = { st with culled := st.culled ++ [i0, i1, i2] } ∨
    cullStep vertices st i0 i1 i2 = st ∨
    (∃ c : Candidate, c.indices = (i0, i1, i2) ∧
      cullStep vertices st i0 i1 i2 = { st with tmap := updateKey (sort3 i0 i1 i2) c st.tmap }) ∨
    (∃ c : Candidate, c.indices = (i0, i1, i2) ∧
      cullStep vertices st i0 i1 i2 = { st with tmap := st.tmap ++ [(sort3 i0 i1 i2, c)] }) := by
  unfold cullStep
  split
  · exact Or.inl rfl
  · split
    · exact Or.inr (Or.inl rfl)
    · split
      · split
        · split
          · exact Or.inr (Or.inr (Or.inl ⟨_, rfl, rfl⟩))
          · exact Or.inr (Or.inl rfl)
        · exact Or.inl rfl
      · exact Or.inr (Or.inr (Or.inr ⟨_, rfl, rfl⟩))

/-- One scan step preserves triple-alignment of the emitted list, grows the
owned output by at most one triple, and only ever owns triples that were
already owned or are the processed triple itself. -/
theorem cullStep_inv (vertices : List ℚ) (st : CullState) (i0 i1 i2 : ℕ)
    (hmod : st.culled.length % 3 = 0) :
    (cullStep vertices st i0 i1 i2).culled.length % 3 = 0 ∧
    (cullStep vertices st i0 i1 i2).culled.length +
        3 * (cullStep vertices st i0 i1 i2).tmap.length ≤
      st.culled.length + 3 * st.tmap.length + 3 ∧
    ∀ x ∈ stateTriples (cullStep vertices st i0 i1 i2),
      x ∈ stateTriples st ∨ x = (i0, i1, i2) := by
  rcases cullStep_shape vertices st i0 i1 i2 with h | h | ⟨c, hc, h⟩ | ⟨c, hc, h⟩ <;> rw [h]
  · refine ⟨by simp [List.length_append]; try omega, by simp [List.length_append]; try omega, ?_⟩
    intro x hx
    simp only [stateTriples, List.mem_append] at hx ⊢
    rcases hx with hx | hx
    · rw [triples_append _ _ hmod] at hx
      rcases List.mem_append.1 hx with hx | hx
      · exact Or.inl (Or.inl hx)
      · simp [triples] at hx
        exact Or.inr hx
    · exact Or.inl (Or.inr hx)
  · exact ⟨hmod, by omega, fun x hx => Or.inl hx⟩
  · refine ⟨hmod, by simp [length_updateKey]; try omega, ?_⟩
    intro x hx
    simp only [stateTriples, List.mem_append] at hx ⊢
    rcases hx with hx | hx
    · exact Or.inl (Or.inl hx)
    · rcases List.mem_map.1 hx with ⟨e, he, hex⟩
      rcases mem_updateKey _ _ _ e he with h1 | h1
      · exact Or.inl (Or.inr (List.mem_map.2 ⟨e, h1, hex⟩))
      · subst h1
        exact Or.inr (by rw [← hex, hc])
  · refine ⟨hmod, by simp [List.length_append]; try omega, ?_⟩
    intro x hx
    simp only [stateTriples, List.mem_append, List.map_append, List.map_cons] at hx ⊢
    rcases hx with hx | hx | hx
    · exact Or.inl (Or.inl hx)
    · exact Or.inl (Or.inr hx)
    · simp at hx
      exact Or.inr (by rw [hx, hc])

/-- The scan invariant, propagated over the whole index list. -/
theorem cullLoop_inv (vertices : List ℚ) : ∀ (l : List ℕ) (st : CullState),
    st.culled.length % 3 = 0 →
    (cullLoop vertices l st).culled.length % 3 = 0 ∧
    (cullLoop vertices l st).culled.length + 3 * (cullLoop vertices l st).tmap.length ≤
      st.culled.length + 3 * st.tmap.length + l.length ∧
    ∀ x ∈ stateTriples (cullLoop vertices l st), x ∈ stateTriples st ∨ x ∈ triples l
  | [], st, hmod => ⟨hmod, by simp [cullLoop], fun x hx => Or.inl hx⟩
  | [a], st, hmod => ⟨hmod, by simp [cullLoop]; try omega, fun x hx => Or.inl hx⟩
  | [a, b], st, hmod => ⟨hmod, by simp [cullLoop]; try omega, fun x hx => Or.inl hx⟩
  | i0 :: i1 :: i2 :: r, st, hmod => by
    have hstep := cullStep_inv vertices st i0 i1 i2 hmod
    have hrec := cullLoop_inv vertices r (cullStep vertices st i0 i1 i2) hstep.1
    have hred : cullLoop vertices (i0 :: i1 :: i2 :: r) st =
        cullLoop vertices r (cullStep vertices st i0 i1 i2) := rfl
    rw [hred]
    refine ⟨hrec.1, ?_, ?_⟩
    · have h1 := hrec.2.1
      have h2 := hstep.2.1
      simp only [List.length_cons]
      omega
    · intro x hx
      rcases hrec.2.2 x hx with h | h
      · rcases hstep.2.2 x h with h2 | h2
        · exact Or.inl h2
        · exact Or.inr (by simp [triples, h2])
      · exact Or.inr (by simp [triples]; exact Or.inr h)

/-- The emitted list only ever grows by appending. -/
theorem cullLoop_culled_ext (vertices : List ℚ) : ∀ (l : List ℕ) (st : CullState),
    ∃ t, (cullLoop vertices l st).culled = st.culled ++ t
  | [], st => ⟨[], by simp [cullLoop]⟩
  | [a], st => ⟨[], by simp [cullLoop]⟩
  | [a, b], st => ⟨[], by simp [cullLoop]⟩
  | i0 :: i1 :: i2 :: r, st => by
    obtain ⟨t, ht⟩ := cullLoop_culled_ext vertices r (cullStep vertices st i0 i1 i2)
    have hred : cullLoop vertices (i0 :: i1 :: i2 :: r) st =
        cullLoop vertices r (cullStep vertices st i0 i1 i2) := rfl
    rcases cullStep_shape vertices st i0 i1 i2 with h | h | ⟨c, _, h⟩ | ⟨c, _, h⟩ <;>
      rw [hred, ht, h]
    · exact ⟨[i0, i1, i2] ++ t, by simp⟩
    · exact ⟨t, rfl⟩
    · exact ⟨t, rfl⟩
    · exact ⟨t, rfl⟩

/-- Processing a triple-aligned prefix first is the same as processing the
whole list. -/
theorem cullLoop_append (vertices : List ℚ) : ∀ (l1 l2 : List ℕ) (st : CullState),
    l1.length % 3 = 0 →
    cullLoop vertices (l1 ++ l2) st = cullLoop vertices l2 (cullLoop vertices l1 st)
  | [], l2, st, _ => rfl
  | [_], _, _, h => by simp at h
  | [_, _], _, _, h => by simp at h
  | i0 :: i1 :: i2 :: r, l2, st, h => by
    have hr : r.length % 3 = 0 := by simp [List.length_cons] at h; omega
    show cullLoop vertices (r ++ l2) (cullStep vertices st i0 i1 i2) =
      cullLoop vertices l2 (cullLoop vertices r (cullStep vertices st i0 i1 i2))
    exact cullLoop_append vertices r l2 _ hr

/-- A scan step whose triple is in bounds and not degenerate, with no pending
candidate under its key, records the triple as a new candidate. -/
theorem cullStep_newKey (vertices : List ℚ) (st : CullState) (i0 i1 i2 : ℕ)
    (hm : ¬ (i0 * 3 + 2 ≥ vertices.length ∨ i1 * 3 + 2 ≥ vertices.length ∨
      i2 * 3 + 2 ≥ vertices.length))
    (hd : ¬ degenerate (normSq (triNormal vertices i0 i1 i2)))
    (hl : lookupKey (sort3 i0 i1 i2) st.tmap = none) :
    cullStep vertices st i0 i1 i2 = { st with tmap := (st.tmap ++ [(sort3 i0 i1 i2,
      Candidate.mk (i0, i1, i2) (triNormal vertices i0 i1 i2)
        (normSq (triNormal vertices i0 i1 i2)))]) } := by
  unfold cullStep
  rw [if_neg hm, if_neg hd, hl]

/-- A scan step whose triple is in bounds and not degenerate, finding a
pending candidate with a near-opposite unit normal, keeps exactly one of the
two: the new triple replaces the candidate exactly when its unit-normal
score is strictly larger. -/
theorem cullStep_backPair (vertices : List ℚ) (st : CullState) (i0 i1 i2 : ℕ)
    (cand : Candidate)
    (hm : ¬ (i0 * 3 + 2 ≥ vertices.length ∨ i1 * 3 + 2 ≥ vertices.length ∨
      i2 * 3 + 2 ≥ vertices.length))
    (hd : ¬ degenerate (normSq (triNormal vertices i0 i1 i2)))
    (hl : lookupKey (sort3 i0 i1 i2) st.tmap = some cand)
    (hdot : dotBelowNeg08 (triNormal vertices i0 i1 i2)
      (normSq (triNormal vertices i0 i1 i2)) cand.normal cand.nsq) :
    cullStep vertices st i0 i1 i2 =
      if scoreGt (triNormal vertices i0 i1 i2) (normSq (triNormal vertices i0 i1 i2))
          cand.normal cand.nsq then
        { st with tmap := (updateKey (sort3 i0 i1 i2)
            (Candidate.mk (i0, i1, i2) (triNormal vertices i0 i1 i2)
              (normSq (triNormal vertices i0 i1 i2))) st.tmap) }
      else st := by
  unfold cullStep
  rw [if_neg hm, if_neg hd, hl]
  show (if dotBelowNeg08 _ _ cand.normal cand.nsq then _ else _) = _
  rw [if_pos hdot]

/-- C3 (claim): when two non-degenerate, in-bounds triangles share the same
sorted-index key and the dot product of their unit normals is below `-0.8`,
`cullBackFaces` emits exactly one of them: the second triangle exactly when
its unit-normal score `nz*4 + ny*2 + nx` is strictly larger than that of the
first, the first otherwise. -/
theorem cullBackFaces_oppositePair (vertices : List ℚ) (a0 a1 a2 b0 b1 b2 : ℕ)
    (ha0 : a0 * 3 + 2 < vertices.length) (ha1 : a1 * 3 + 2 < vertices.length)
    (ha2 : a2 * 3 + 2 < vertices.length) (hb0 : b0 * 3 + 2 < vertices.length)
    (hb1 : b1 * 3 + 2 < vertices.length) (hb2 : b2 * 3 + 2 < vertices.length)
    (hkey : sort3 b0 b1 b2 = sort3 a0 a1 a2)
    (hda : ¬ degenerate (normSq (triNormal vertices a0 a1 a2)))
    (hdb : ¬ degenerate (normSq (triNormal vertices b0 b1 b2)))
    (hdot : dotBelowNeg08 (triNormal vertices b0 b1 b2)
      (normSq (triNormal vertices b0 b1 b2)) (triNormal vertices a0 a1 a2)
      (normSq (triNormal vertices a0 a1 a2))) :
    cullBackFaces [a0, a1, a2, b0, b1, b2] vertices =
      if scoreGt (triNormal vertices b0 b1 b2) (normSq (triNormal vertices b0 b1 b2))
          (triNormal vertices a0 a1 a2) (normSq (triNormal vertices a0 a1 a2))
      then [b0, b1, b2] else [a0, a1, a2] := by
  have hm1 : ¬ (a0 * 3 + 2 ≥ vertices.length ∨ a1 * 3 + 2 ≥ vertices.length ∨
      a2 * 3 + 2 ≥ vertices.length) := by omega
  have hm2 : ¬ (b0 * 3 + 2 ≥ vertices.length ∨ b1 * 3 + 2 ≥ vertices.length ∨
      b2 * 3 + 2 ≥ vertices.length) := by omega
  have s1 : cullStep vertices ⟨[], []⟩ a0 a1 a2 =
      ⟨[], [(sort3 a0 a1 a2, Candidate.mk (a0, a1, a2) (triNormal vertices a0 a1 a2)
        (normSq (triNormal vertices a0 a1 a2)))]⟩ :=
    cullStep_newKey vertices ⟨[], []⟩ a0 a1 a2 hm1 hda rfl
  have hl2 : lookupKey (sort3 b0 b1 b2)
      [(sort3 a0 a1 a2, Candidate.mk (a0, a1, a2) (triNormal vertices a0 a1 a2)
        (normSq (triNormal vertices a0 a1 a2)))] =
      some (Candidate.mk (a0, a1, a2) (triNormal vertices a0 a1 a2)
        (normSq (triNormal vertices a0 a1 a2))) := by
    simp only [lookupKey]
    rw [if_pos hkey.symm]
  have e1 : cullLoop vertices [a0, a1, a2, b0, b1, b2] ⟨[], []⟩ =
      cullStep vertices (cullStep vertices ⟨[], []⟩ a0 a1 a2) b0 b1 b2 := rfl
  have e0 : cullBackFaces [a0, a1, a2, b0, b1, b2] vertices =
      (cullLoop vertices [a0, a1, a2, b0, b1, b2] ⟨[], []⟩).culled ++
        (cullLoop vertices [a0, a1, a2, b0, b1, b2] ⟨[], []⟩).tmap.flatMap
          (fun e => [e.2.indices.1, e.2.indices.2.1, e.2.indices.2.2]) := by
    rw [cullBackFaces, if_neg (by simp)]
  have s2 := cullStep_backPair vertices
    ⟨[], [(sort3 a0 a1 a2, Candidate.mk (a0, a1, a2) (triNormal vertices a0 a1 a2)
      (normSq (triNormal vertices a0 a1 a2)))]⟩ b0 b1 b2
    (Candidate.mk (a0, a1, a2) (triNormal vertices a0 a1 a2)
      (normSq (triNormal vertices a0 a1 a2))) hm2 hdb hl2 hdot
  rw [e0, e1, s1]
  by_cases hs : scoreGt (triNormal vertices b0 b1 b2)
      (normSq (triNormal vertices b0 b1 b2)) (triNormal vertices a0 a1 a2)
      (normSq (triNormal vertices a0 a1 a2))
  · rw [if_pos hs]
    rw [if_pos hs] at s2
    rw [s2]
    show ([] : List ℕ) ++ (updateKey (sort3 b0 b1 b2) _
      [(sort3 a0 a1 a2, _)]).flatMap _ = _
    simp only [updateKey]
    rw [if_pos hkey.symm]
    rfl
  · rw [if_neg hs]
    rw [if_neg hs] at s2
    rw [s2]
    rfl

/-- Witness for C3: the vertex buffer `(0,0,0), (1,0,0), (0,1,0)` with the
triangle `(0,1,2)` followed by its winding-reversed copy `(0,2,1)` has raw
normals `(0,0,1)` and `(0,0,-1)`; the scan keeps exactly the `(0,0,1)`
triangle. -/
theorem cullBackFaces_oppositePair_witness :
    triNormal [0, 0, 0, 1, 0, 0, 0, 1, 0] 0 1 2 = (0, 0, 1) ∧
    triNormal [0, 0, 0, 1, 0, 0, 0, 1, 0] 0 2 1 = (0, 0, -1) ∧
    cullBackFaces [0, 1, 2, 0, 2, 1] [0, 0, 0, 1, 0, 0, 0, 1, 0] = [0, 1, 2] := by
  refine ⟨by with_unfolding_all decide, by with_unfolding_all decide, ?_⟩
  have h := cullBackFaces_oppositePair [0, 0, 0, 1, 0, 0, 0, 1, 0] 0 1 2 0 2 1
    (by decide) (by decide) (by decide) (by decide) (by decide) (by decide)
    (by with_unfolding_all decide) (by with_unfolding_all decide)
    (by with_unfolding_all decide) (by with_unfolding_all decide)
  rw [if_neg (by with_unfolding_all decide)] at h
  exact h

/-- C4 (claim): an index triple referencing a vertex outside the buffer
bounds is emitted unchanged, and it participates neither in degenerate
dropping nor in key-based deduplication: the scan step only appends the
triple to the output, leaving the candidate map untouched, and the triple
appears among the output triples of `cullBackFaces`. -/
theorem cullBackFaces_malformed_passthrough (vertices : List ℚ) (i0 i1 i2 : ℕ)
    (h : i0 * 3 + 2 ≥ vertices.length ∨ i1 * 3 + 2 ≥ vertices.length ∨
      i2 * 3 + 2 ≥ vertices.length) :
    (∀ (st : CullState) (rest : List ℕ),
      cullLoop vertices (i0 :: i1 :: i2 :: rest) st =
        cullLoop vertices rest { st with culled := st.culled ++ [i0, i1, i2] }) ∧
    (∀ pre post : List ℕ, pre.length % 3 = 0 →
      (i0, i1, i2) ∈ triples (cullBackFaces (pre ++ i0 :: i1 :: i2 :: post) vertices)) := by
  have hstep : ∀ st : CullState, cullStep vertices st i0 i1 i2 =
      { st with culled := st.culled ++ [i0, i1, i2] } := by
    intro st
    unfold cullStep
    rw [if_pos h]
  constructor
  · intro st rest
    show cullLoop vertices rest (cullStep vertices st i0 i1 i2) = _
    rw [hstep st]
  · intro pre post hpre
    have hne : pre ++ i0 :: i1 :: i2 :: post ≠ [] := by simp
    have hout : cullBackFaces (pre ++ i0 :: i1 :: i2 :: post) vertices =
        (cullLoop vertices (pre ++ i0 :: i1 :: i2 :: post) ⟨[], []⟩).culled ++
          (cullLoop vertices (pre ++ i0 :: i1 :: i2 :: post) ⟨[], []⟩).tmap.flatMap
            (fun e => [e.2.indices.1, e.2.indices.2.1, e.2.indices.2.2]) := by
      rw [cullBackFaces, if_neg hne]
    have hsplit := cullLoop_append vertices pre (i0 :: i1 :: i2 :: post) ⟨[], []⟩ hpre
    have hpreInv := cullLoop_inv vertices pre ⟨[], []⟩ (by simp)
    have hmid : cullLoop vertices (i0 :: i1 :: i2 :: post)
          (cullLoop vertices pre ⟨[], []⟩) =
        cullLoop vertices post { cullLoop vertices pre ⟨[], []⟩ with
          culled := (cullLoop vertices pre ⟨[], []⟩).culled ++ [i0, i1, i2] } := by
      show cullLoop vertices post (cullStep vertices (cullLoop vertices pre ⟨[], []⟩) i0 i1 i2) = _
      rw [hstep]
    obtain ⟨t, ht⟩ := cullLoop_culled_ext vertices post
      ({ cullLoop vertices pre ⟨[], []⟩ with
        culled := (cullLoop vertices pre ⟨[], []⟩).culled ++ [i0, i1, i2] })
    have hwholeInv := cullLoop_inv vertices (pre ++ i0 :: i1 :: i2 :: post) ⟨[], []⟩ (by simp)
    rw [hout, triples_append _ _ hwholeInv.1]
    refine List.mem_append.2 (Or.inl ?_)
    rw [hsplit, hmid, ht]
    have hassoc : ((cullLoop vertices pre ⟨[], []⟩).culled ++ [i0, i1, i2]) ++ t =
        (cullLoop vertices pre ⟨[], []⟩).culled ++ ([i0, i1, i2] ++ t) := by
      simp
    rw [hassoc, triples_append _ _ hpreInv.1]
    refine List.mem_append.2 (Or.inr ?_)
    show (i0, i1, i2) ∈ triples (i0 :: i1 :: i2 :: t)
    rw [triples]
    exact List.mem_cons_self _ _

/-- Witness for C4: with a one-float vertex buffer, the triple `(9,9,9)` is
out of bounds; the scan step passes it through unchanged and it survives to
the output of `cullBackFaces`. -/
theorem cullBackFaces_malformed_witness :
    (9 * 3 + 2 ≥ ([0] : List ℚ).length ∨ 9 * 3 + 2 ≥ ([0] : List ℚ).length ∨
      9 * 3 + 2 ≥ ([0] : List ℚ).length) ∧
    cullLoop [0] [9, 9, 9] ⟨[], []⟩ = ⟨[9, 9, 9], []⟩ ∧
    (9, 9, 9) ∈ triples (cullBackFaces [9, 9, 9] [0]) := by
  have h := cullBackFaces_malformed_passthrough [0] 9 9 9 (by decide)
  refine ⟨by decide, ?_, ?_⟩
  · rw [h.1 ⟨[], []⟩ []]
    rfl
  · have := h.2 [] [] (by decide)
    simpa using this

/-- C10 (claim): on triple-aligned input, `cullBackFaces` is conservative:
the output length is a multiple of three and at most the input length, and
every emitted triple is one of the input triples. -/
theorem cullBackFaces_conservative (vertices : List ℚ) (l : List ℕ)
    (h3 : l.length % 3 = 0) :
    (cullBackFaces l vertices).length % 3 = 0 ∧
    (cullBackFaces l vertices).length ≤ l.length ∧
    ∀ x ∈ triples (cullBackFaces l vertices), x ∈ triples l := by
  by_cases hnil : l = []
  · subst hnil
    simp [cullBackFaces, triples]
  · obtain ⟨hm, hlen, htr⟩ := cullLoop_inv vertices l ⟨[], []⟩ (by simp)
    have hout : cullBackFaces l vertices =
        (cullLoop vertices l ⟨[], []⟩).culled ++
          (cullLoop vertices l ⟨[], []⟩).tmap.flatMap
            (fun e => [e.2.indices.1, e.2.indices.2.1, e.2.indices.2.2]) := by
      rw [cullBackFaces, if_neg hnil]
    have hflatlen := length_flatMapTri (fun e : (ℕ × ℕ × ℕ) × Candidate => e.2.indices)
      (cullLoop vertices l ⟨[], []⟩).tmap
    have hlen0 : (cullLoop vertices l ⟨[], []⟩).culled.length +
        3 * (cullLoop vertices l ⟨[], []⟩).tmap.length ≤ l.length := by
      have := hlen
      simpa using this
    refine ⟨?_, ?_, ?_⟩
    · rw [hout, List.length_append, hflatlen]
      omega
    · rw [hout, List.length_append, hflatlen]
      omega
    · intro x hx
      rw [hout, triples_append _ _ hm,
        triples_flatMapTri (fun e : (ℕ × ℕ × ℕ) × Candidate => e.2.indices)] at hx
      have hx2 : x ∈ stateTriples (cullLoop vertices l ⟨[], []⟩) := hx
      rcases htr x hx2 with hc | hc
      · simp [stateTriples, triples] at hc
      · exact hc

/-- Witness for C10: a buffer too short for the triple `(0,1,2)` keeps the
triple as-is, so the output equals the input. -/
theorem cullBackFaces_conservative_witness :
    ([0, 1, 2] : List ℕ).length % 3 = 0 ∧
    (cullBackFaces [0, 1, 2] ([] : List ℚ)).length % 3 = 0 ∧
    (cullBackFaces [0, 1, 2] ([] : List ℚ)).length ≤ ([0, 1, 2] : List ℕ).length ∧
    ∀ x ∈ triples (cullBackFaces [0, 1, 2] ([] : List ℚ)), x ∈ triples [0, 1, 2] := by
  have h := cullBackFaces_conservative ([] : List ℚ) [0, 1, 2] (by decide)
  exact ⟨by decide, h.1, h.2.1, h.2.2⟩

end FaceCuller

namespace R16Writer

/-- One terrain chunk as consumed by `setHeightDataFromChunks`: a position
vector (only the z component, `position[2]`, is read) and the flat vertex
height samples.  A missing chunk, or one without a vertex array, is `none`. -/
structure Chunk where
  position : ℚ × ℚ × ℚ
  vertices : List ℚ
deriving DecidableEq

/-- Grid side length: `chunksPerSide * (vertsPerChunk - 1) + 1 = 257`. -/
def fullSize : ℕ := 257

/-- Running minimum update of the source
(`if (heightValue < this.minHeight) this.minHeight = heightValue`);
`none` models the initial `Infinity`. -/
def updMin : Option ℚ → ℚ → Option ℚ
  | none, v => some v
  | some m, v => some (if v < m then v else m)

/-- Running maximum update; `none` models the initial `-Infinity`. -/
def updMax : Option ℚ → ℚ → Option ℚ
  | none, v => some v
  | some m, v => some (if m < v then v else m)

/-- The chunk-local sample walking order of the source: rows `0..16`, where
even rows carry 9 columns and odd rows 8. -/
def samplePositions : List (ℕ × ℕ) :=
  (List.range 17).flatMap fun row =>
    (List.range (if row % 2 = 1 then 8 else 9)).map fun col => (row, col)

/-- Chunk-local x position of a sample: odd (short) rows sit at `col*2 + 1`,
even (long) rows at `col*2`. -/
def localX (row col : ℕ) : ℕ :=
  if row % 2 = 1 then col * 2 + 1 else col * 2

/-- Flat grid index of the sample `(row, col)` of chunk `(chunkX, chunkY)`:
`globalY * fullSize + globalX` with `globalY = chunkX*16 + row` and
`globalX = chunkY*16 + localX`. -/
def targetIdx (chunkX chunkY row col : ℕ) : ℕ :=
  (chunkX * 16 + row) * fullSize + (chunkY * 16 + localX row col)

/-- The in-grid guard of the source
(`globalX < fullSize && globalY < fullSize && localX < 17 && localY < 17`). -/
def inGrid (chunkX chunkY row col : ℕ) : Prop :=
  chunkY * 16 + localX row col < fullSize ∧ chunkX * 16 + row < fullSize ∧
    localX row col < 17 ∧ row < 17

instance (chunkX chunkY row col : ℕ) : Decidable (inGrid chunkX chunkY row col) := by
  unfold inGrid; infer_instance

/-- State of the first pass: the height grid, the is-set bitmap (bit `i` of
the natural number `hset` is the boolean `heightSet[i]` of the source), and
the running extrema. -/
structure BuildState where
  heights : List ℚ
  hset : ℕ
  minH : Option ℚ
  maxH : Option ℚ

/-- Processing of one `(position, rawSample)` pair of a chunk: if the target
cell is inside the grid and not yet set, write `rawSample + zOffset`, mark
the cell, and fold the value into the running extrema. -/
def sampleStep (chunkX chunkY : ℕ) (zoff : ℚ) (st : BuildState)
    (s : (ℕ × ℕ) × ℚ) : BuildState :=
  if inGrid chunkX chunkY s.1.1 s.1.2 then
    if st.hset.testBit (targetIdx chunkX chunkY s.1.1 s.1.2) = false then
      { heights := st.heights.set (targetIdx chunkX chunkY s.1.1 s.1.2) (s.2 + zoff),
        hset := st.hset ||| 2 ^ targetIdx chunkX chunkY s.1.1 s.1.2,
        minH := updMin st.minH (s.2 + zoff),
        maxH := updMax st.maxH (s.2 + zoff) }
    else st
  else st

/-- Processing of one chunk: walk the sample positions paired with the
available vertex samples (the source breaks out of the loop once
`vertexIndex` reaches the vertex count, which is exactly the `zip`). -/
def chunkStep (st : BuildState) (chunkX chunkY : ℕ) (chunk : Option Chunk) : BuildState :=
  match chunk with
  | none => st
  | some ch =>
    (samplePositions.zip ch.vertices).foldl (sampleStep chunkX chunkY ch.position.2.2) st

/-- The chunk iteration order of the source: `chunkX` outer, `chunkY` inner,
reading chunk `chunkX*16 + chunkY`. -/
def chunkOrder : List (ℕ × ℕ) :=
  (List.range 16).flatMap fun cx => (List.range 16).map fun cy => (cx, cy)

/-- The zero-filled initial grid with empty is-set bitmap and infinite
initial extrema. -/
def initState : BuildState :=
  ⟨List.replicate (fullSize * fullSize) 0, 0, none, none⟩

/-- First pass of `setHeightDataFromChunks`. -/
def pass1 (chunks : List (Option Chunk)) : BuildState :=
  chunkOrder.foldl
    (fun st p => chunkStep st p.1 p.2 (chunks.getD (p.1 * 16 + p.2) none)) initState

/-- The neighbor offsets `(dx, dy)` consulted by the interpolation pass:
vertical for even x, horizontal for odd x. -/
def neighborList (x : ℕ) : List (ℤ × ℤ) :=
  if x % 2 = 0 then [(0, -1), (0, 1)] else [(-1, 0), (1, 0)]

/-- Accumulate `(totalHeight, count)` over the in-bounds, already-set
neighbors of cell `(y, x)`. -/
def gatherNeighbors (heights : List ℚ) (hset : ℕ) (y x : ℕ) : ℚ × ℕ :=
  (neighborList x).foldl (fun acc d =>
    if 0 ≤ (x : ℤ) + d.1 ∧ (x : ℤ) + d.1 < (fullSize : ℤ) ∧
        0 ≤ (y : ℤ) + d.2 ∧ (y : ℤ) + d.2 < (fullSize : ℤ) then
      if hset.testBit ((((y : ℤ) + d.2).toNat) * fullSize + (((x : ℤ) + d.1).toNat)) then
        (acc.1 + heights.getD ((((y : ℤ) + d.2).toNat) * fullSize + (((x : ℤ) + d.1).toNat)) 0,
          acc.2 + 1)
      else acc
    else acc) (0, 0)

/-- Interpolation step for the cell `(y, x)`: a still-unset cell with at
least one available neighbor receives the average and is marked set. -/
def pass2Cell (g : List ℚ × ℕ) (c : ℕ × ℕ) : List ℚ × ℕ :=
  if g.2.testBit (c.1 * fullSize + c.2) = false then
    if 0 < (gatherNeighbors g.1 g.2 c.1 c.2).2 then
      (g.1.set (c.1 * fullSize + c.2)
          ((gatherNeighbors g.1 g.2 c.1 c.2).1 / ((gatherNeighbors g.1 g.2 c.1 c.2).2 : ℚ)),
        g.2 ||| 2 ^ (c.1 * fullSize + c.2))
    else g
  else g

/-- The row-major cell iteration order of the interpolation pass. -/
def cellOrder : List (ℕ × ℕ) :=
  (List.range fullSize).flatMap fun y => (List.range fullSize).map fun x => (y, x)

/-- The interpolation pass over the full grid. -/
def interp (p : BuildState) : List ℚ × ℕ :=
  cellOrder.foldl pass2Cell (p.heights, p.hset)

/- After `setHeightDataFromChunks(chunks)` the writer fields are:
`this.heightData = (interp (pass1 chunks)).1` (the interpolated grid),
`this.minHeight = (pass1 chunks).minH` and
`this.maxHeight = (pass1 chunks).maxH` (the interpolation pass does not
touch the extrema).  The theorems below use these component expressions
directly. -/

/-- The flat stream view of one chunk: the `(targetIndex, height)` pairs of
its samples that pass the in-grid guard, in walking order. -/
def chunkSamples (chunkX chunkY : ℕ) (ch : Chunk) : List (ℕ × ℚ) :=
  (samplePositions.zip ch.vertices).filterMap fun s =>
    if inGrid chunkX chunkY s.1.1 s.1.2 then
      some (targetIdx chunkX chunkY s.1.1 s.1.2, s.2 + ch.position.2.2)
    else none

/-- The stream contribution of the chunk slot `p = (chunkX, chunkY)`. -/
def chunkStream (chunks : List (Option Chunk)) (p : ℕ × ℕ) : List (ℕ × ℚ) :=
  match chunks.getD (p.1 * 16 + p.2) none with
  | none => []
  | some ch => chunkSamples p.1 p.2 ch

/-- The flat stream view of the whole first pass: all `(targetIndex, height)`
pairs in processing order. -/
def samplesStream (chunks : List (Option Chunk)) : List (ℕ × ℚ) :=
  chunkOrder.flatMap (chunkStream chunks)

/-- First-pass processing of one stream pair. -/
def flatStep (st : BuildState) (s : ℕ × ℚ) : BuildState :=
  if st.hset.testBit s.1 = false then
    { heights := st.heights.set s.1 s.2, hset := st.hset ||| 2 ^ s.1,
      minH := updMin st.minH s.2, maxH := updMax st.maxH s.2 }
  else st

/-- The pairs of a stream that are the first to touch their cell: later
pairs aimed at an already-touched cell are dropped, mirroring the
first-writer-wins rule of the first pass. -/
def firstWrites : List (ℕ × ℚ) → ℕ → List (ℕ × ℚ)
  | [], _ => []
  | s :: r, seen =>
    if seen.testBit s.1 then firstWrites r seen
    else s :: firstWrites r (seen ||| 2 ^ s.1)

theorem foldl_flatMap {α β σ : Type} (g : σ → β → σ) (f : α → List β) :
    ∀ (l : List α) (s : σ),
      (l.flatMap f).foldl g s = l.foldl (fun s a => (f a).foldl g s) s
  | [], _ => rfl
  | a :: r, s => by
    rw [List.flatMap_cons, List.foldl_append, List.foldl_cons, foldl_flatMap g f r]

theorem sampleFold_flat (chunkX chunkY : ℕ) (z : ℚ) :
    ∀ (l : List ((ℕ × ℕ) × ℚ)) (st : BuildState),
      l.foldl (sampleStep chunkX chunkY z) st =
        (l.filterMap fun s => if inGrid chunkX chunkY s.1.1 s.1.2 then
          some (targetIdx chunkX chunkY s.1.1 s.1.2, s.2 + z) else none).foldl flatStep st
  | [], _ => rfl
  | s :: r, st => by
    by_cases hg : inGrid chunkX chunkY s.1.1 s.1.2
    · have hstep : sampleStep chunkX chunkY z st s =
          flatStep st (targetIdx chunkX chunkY s.1.1 s.1.2, s.2 + z) := by
        unfold sampleStep flatStep
        rw [if_pos hg]
      rw [List.foldl_cons, hstep]
      simp only [List.filterMap_cons, if_pos hg]
      rw [List.foldl_cons]
      exact sampleFold_flat chunkX chunkY z r _
    · have hstep : sampleStep chunkX chunkY z st s = st := by
        unfold sampleStep
        rw [if_neg hg]
      rw [List.foldl_cons, hstep]
      simp only [List.filterMap_cons, if_neg hg]
      exact sampleFold_flat chunkX chunkY z r st

theorem chunkStep_flat (chunkX chunkY : ℕ) (ch : Chunk) (st : BuildState) :
    chunkStep st chunkX chunkY (some ch) = (chunkSamples chunkX chunkY ch).foldl flatStep st := by
  unfold chunkStep chunkSamples
  exact sampleFold_flat chunkX chunkY ch.position.2.2 _ st

/-- The nested chunk iteration of the first pass is the fold of the flat
first-writer step over the flat sample stream. -/
theorem chunkStream_none (chunks : List (Option Chunk)) (p : ℕ × ℕ)
    (h : chunks.getD (p.1 * 16 + p.2) none = none) : chunkStream chunks p = [] := by
  unfold chunkStream
  rw [h]

theorem chunkStream_some (chunks : List (Option Chunk)) (p : ℕ × ℕ) (ch : Chunk)
    (h : chunks.getD (p.1 * 16 + p.2) none = some ch) :
    chunkStream chunks p = chunkSamples p.1 p.2 ch := by
  unfold chunkStream
  rw [h]

theorem pass1_flat (chunks : List (Option Chunk)) :
    pass1 chunks = (samplesStream chunks).foldl flatStep initState := by
  unfold pass1 samplesStream
  rw [foldl_flatMap]
  congr 1
  funext st p
  cases h : chunks.getD (p.1 * 16 + p.2) none with
  | none =>
    rw [chunkStream_none chunks p h]
    rfl
  | some ch =>
    rw [chunkStream_some chunks p ch h]
    exact chunkStep_flat p.1 p.2 ch st

/-- The extrema computed by the first pass are the running extrema over
exactly the first-writer pairs of the stream. -/
theorem flatFold_extrema : ∀ (l : List (ℕ × ℚ)) (st : BuildState),
    (l.foldl flatStep st).minH =
      (firstWrites l st.hset).foldl (fun m s => updMin m s.2) st.minH ∧
    (l.foldl flatStep st).maxH =
      (firstWrites l st.hset).foldl (fun m s => updMax m s.2) st.maxH
  | [], st => ⟨rfl, rfl⟩
  | s :: r, st => by
    by_cases h : st.hset.testBit s.1
    · have hstep : flatStep st s = st := by
        unfold flatStep
        rw [if_neg (by simp [h])]
      have hfw : firstWrites (s :: r) st.hset = firstWrites r st.hset := by
        simp only [firstWrites]
        rw [if_pos h]
      rw [List.foldl_cons, hstep, hfw]
      exact flatFold_extrema r st
    · have hbit : st.hset.testBit s.1 = false := by simpa using h
      have hstep : flatStep st s = ⟨st.heights.set s.1 s.2, st.hset ||| 2 ^ s.1,
          updMin st.minH s.2, updMax st.maxH s.2⟩ := by
        unfold flatStep
        rw [if_pos hbit]
      have hfw : firstWrites (s :: r) st.hset =
          s :: firstWrites r (st.hset ||| 2 ^ s.1) := by
        simp only [firstWrites]
        rw [if_neg (by simp [hbit])]
      rw [List.foldl_cons, hstep, hfw, List.foldl_cons]
      exact flatFold_extrema r ⟨st.heights.set s.1 s.2, st.hset ||| 2 ^ s.1,
        updMin st.minH s.2, updMax st.maxH s.2⟩

/-- Cells once marked set stay set across the first pass. -/
theorem flatFold_bit_mono : ∀ (l : List (ℕ × ℚ)) (st : BuildState) (i : ℕ),
    st.hset.testBit i = true → (l.foldl flatStep st).hset.testBit i = true
  | [], _, _, h => h
  | s :: r, st, i, h => by
    rw [List.foldl_cons]
    apply flatFold_bit_mono r
    unfold flatStep
    split
    · simp [Nat.testBit_or, h]
    · exact h

/-- Every cell targeted by some stream pair ends up set after the first
pass. -/
theorem flatFold_bit_mem : ∀ (l : List (ℕ × ℚ)) (st : BuildState) (i : ℕ) (v : ℚ),
    (i, v) ∈ l → (l.foldl flatStep st).hset.testBit i = true
  | [], _, _, _, hm => absurd hm (by simp)
  | s :: r, st, i, v, hm => by
    rcases List.mem_cons.1 hm with he | he
    · rw [List.foldl_cons]
      apply flatFold_bit_mono r
      unfold flatStep
      by_cases hb : st.hset.testBit s.1 = false
      · rw [if_pos hb]
        have : i = s.1 := by rw [← he]
        subst this
        simp [Nat.testBit_or, Nat.testBit_two_pow_self]
      · rw [if_neg hb]
        have : i = s.1 := by rw [← he]
        subst this
        simpa using hb
    · rw [List.foldl_cons]
      exact flatFold_bit_mem r _ i v he

theorem samplePositions_length : samplePositions.length = 145 := by decide

/-- Every walked sample position passes the in-grid guard for every chunk of
the 16 by 16 layout. -/
theorem inGrid_of_mem (cx cy row col : ℕ) (hcx : cx < 16) (hcy : cy < 16)
    (hm : (row, col) ∈ samplePositions) : inGrid cx cy row col := by
  simp only [samplePositions, List.mem_flatMap, List.mem_map, List.mem_range] at hm
  obtain ⟨r, hr, c, hc, he⟩ := hm
  have h1 : r = row := congrArg Prod.fst he
  have h2 : c = col := congrArg Prod.snd he
  subst h1
  subst h2
  unfold inGrid localX fullSize
  by_cases hp : r % 2 = 1
  · rw [if_pos hp] at hc ⊢
    refine ⟨by omega, by omega, by omega, by omega⟩
  · rw [if_neg hp] at hc ⊢
    refine ⟨by omega, by omega, by omega, by omega⟩

/-- Every grid cell whose coordinates have an even parity sum is the target
of some walked chunk sample. -/
theorem cell_covered (gy gx : ℕ) (hy : gy < 257) (hx : gx < 257)
    (hpar : (gx + gy) % 2 = 0) :
    ∃ cx cy row col, cx < 16 ∧ cy < 16 ∧ (row, col) ∈ samplePositions ∧
      targetIdx cx cy row col = gy * 257 + gx := by
  by_cases hgy : gy = 256
  · by_cases hgx : gx = 256
    · subst hgy
      subst hgx
      exact ⟨15, 15, 16, 8, by omega, by omega, by decide, by decide⟩
    · subst hgy
      refine ⟨15, gx / 16, 16, (gx % 16) / 2, by omega, by omega, ?_, ?_⟩
      · simp only [samplePositions, List.mem_flatMap, List.mem_map, List.mem_range]
        refine ⟨16, by omega, (gx % 16) / 2, ?_, rfl⟩
        split_ifs <;> omega
      · unfold targetIdx localX fullSize
        rw [if_neg (by norm_num : ¬ (16 % 2 = 1))]
        omega
  · by_cases hgx : gx = 256
    · subst hgx
      refine ⟨gy / 16, 15, gy % 16, 8, by omega, by omega, ?_, ?_⟩
      · simp only [samplePositions, List.mem_flatMap, List.mem_map, List.mem_range]
        refine ⟨gy % 16, by omega, 8, ?_, rfl⟩
        split_ifs <;> omega
      · unfold targetIdx localX fullSize
        split_ifs <;> omega
    · refine ⟨gy / 16, gx / 16, gy % 16, (gx % 16) / 2, by omega, by omega, ?_, ?_⟩
      · simp only [samplePositions, List.mem_flatMap, List.mem_map, List.mem_range]
        refine ⟨gy % 16, by omega, (gx % 16) / 2, ?_, rfl⟩
        split_ifs <;> omega
      · unfold targetIdx localX fullSize
        split_ifs <;> omega

/-- Under full chunk population, every walked position of every chunk turns
into a stream pair with the expected target index. -/
theorem stream_covers (chunks : List (Option Chunk))
    (hfull : ∀ ci, ci < 256 → ∃ ch, chunks.getD ci none = some ch ∧
      145 ≤ ch.vertices.length)
    (cx cy row col : ℕ) (hcx : cx < 16) (hcy : cy < 16)
    (hm : (row, col) ∈ samplePositions) :
    ∃ v, (targetIdx cx cy row col, v) ∈ samplesStream chunks := by
  obtain ⟨ch, hch, hlen⟩ := hfull (cx * 16 + cy) (by omega)
  obtain ⟨⟨k, hk⟩, hget⟩ := List.mem_iff_get.1 hm
  have hkv : k < ch.vertices.length := by
    rw [samplePositions_length] at hk
    omega
  have hzlen : (samplePositions.zip ch.vertices).length = 145 := by
    rw [List.length_zip, samplePositions_length]
    omega
  have hkz : k < (samplePositions.zip ch.vertices).length := by
    rw [hzlen]
    rw [samplePositions_length] at hk
    omega
  have hzget : (samplePositions.zip ch.vertices)[k] =
      ((row, col), ch.vertices[k]) := by
    rw [List.getElem_zip]
    rw [show samplePositions[k] = (row, col) from hget]
  have hzmem : ((row, col), ch.vertices[k]) ∈
      samplePositions.zip ch.vertices := by
    rw [← hzget]
    exact List.getElem_mem hkz
  refine ⟨ch.vertices[k] + ch.position.2.2, ?_⟩
  have hcs : (targetIdx cx cy row col,
      ch.vertices[k] + ch.position.2.2) ∈
      chunkSamples cx cy ch := by
    refine List.mem_filterMap.2 ⟨_, hzmem, ?_⟩
    rw [if_pos (inGrid_of_mem cx cy row col hcx hcy hm)]
  refine List.mem_flatMap.2 ⟨(cx, cy), ?_, ?_⟩
  · simp only [chunkOrder, List.mem_flatMap, List.mem_map, List.mem_range]
    exact ⟨cx, hcx, cy, hcy, rfl⟩
  · rw [chunkStream_some chunks (cx, cy) ch hch]
    exact hcs

/-- After the first pass on a fully populated chunk set, every cell with an
even parity sum is set. -/
theorem pass1_even_set (chunks : List (Option Chunk))
    (hfull : ∀ ci, ci < 256 → ∃ ch, chunks.getD ci none = some ch ∧
      145 ≤ ch.vertices.length)
    (gy gx : ℕ) (hy : gy < 257) (hx : gx < 257) (hpar : (gx + gy) % 2 = 0) :
    (pass1 chunks).hset.testBit (gy * 257 + gx) = true := by
  obtain ⟨cx, cy, row, col, hcx, hcy, hm, htgt⟩ := cell_covered gy gx hy hx hpar
  obtain ⟨v, hv⟩ := stream_covers chunks hfull cx cy row col hcx hcy hm
  rw [pass1_flat]
  exact flatFold_bit_mem _ _ _ v (by rw [← htgt]; exact hv)

/-- One interpolation step never clears a set bit. -/
theorem pass2Cell_bit_mono (g : List ℚ × ℕ) (c : ℕ × ℕ) (i : ℕ)
    (h : g.2.testBit i = true) : (pass2Cell g c).2.testBit i = true := by
  unfold pass2Cell
  split
  · split
    · simp [Nat.testBit_or, h]
    · exact h
  · exact h

/-- Set bits survive the whole interpolation pass. -/
theorem pass2_bit_mono : ∀ (l : List (ℕ × ℕ)) (g : List ℚ × ℕ) (i : ℕ),
    g.2.testBit i = true → (l.foldl pass2Cell g).2.testBit i = true
  | [], _, _, h => h
  | c :: r, g, i, h => by
    rw [List.foldl_cons]
    exact pass2_bit_mono r _ i (pass2Cell_bit_mono g c i h)

/-- A cell with at least one in-bounds, already-set chosen neighbor gathers
a positive neighbor count. -/
theorem gatherNeighbors_pos (heights : List ℚ) (hs : ℕ) (y x : ℕ)
    (h : ∃ d ∈ neighborList x, 0 ≤ (x : ℤ) + d.1 ∧ (x : ℤ) + d.1 < (fullSize : ℤ) ∧
      0 ≤ (y : ℤ) + d.2 ∧ (y : ℤ) + d.2 < (fullSize : ℤ) ∧
      hs.testBit ((((y : ℤ) + d.2).toNat) * fullSize + (((x : ℤ) + d.1).toNat)) = true) :
    0 < (gatherNeighbors heights hs y x).2 := by
  obtain ⟨d, hd, hb1, hb2, hb3, hb4, hb5⟩ := h
  unfold gatherNeighbors
  unfold neighborList at hd
  by_cases hx2 : x % 2 = 0
  · rw [if_pos hx2] at hd
    rw [show neighborList x = [((0 : ℤ), (-1 : ℤ)), ((0 : ℤ), (1 : ℤ))] from by
      unfold neighborList; rw [if_pos hx2]]
    simp only [List.mem_cons, List.not_mem_nil, or_false, List.mem_singleton] at hd
    simp only [List.foldl_cons, List.foldl_nil]
    rcases hd with rfl | rfl
    · dsimp only at hb1 hb2 hb3 hb4 hb5
      split_ifs <;> simp_all
    · dsimp only at hb1 hb2 hb3 hb4 hb5
      split_ifs <;> simp_all
  · rw [if_neg hx2] at hd
    rw [show neighborList x = [((-1 : ℤ), (0 : ℤ)), ((1 : ℤ), (0 : ℤ))] from by
      unfold neighborList; rw [if_neg hx2]]
    simp only [List.mem_cons, List.not_mem_nil, or_false, List.mem_singleton] at hd
    simp only [List.foldl_cons, List.foldl_nil]
    rcases hd with rfl | rfl
    · dsimp only at hb1 hb2 hb3 hb4 hb5
      split_ifs <;> simp_all
    · dsimp only at hb1 hb2 hb3 hb4 hb5
      split_ifs <;> simp_all

/-- A visited cell with an available set neighbor ends the interpolation
pass set. -/
theorem pass2_bit_of_mem : ∀ (l : List (ℕ × ℕ)) (g : List ℚ × ℕ) (y x : ℕ),
    (y, x) ∈ l →
    (∃ d ∈ neighborList x, 0 ≤ (x : ℤ) + d.1 ∧ (x : ℤ) + d.1 < (fullSize : ℤ) ∧
      0 ≤ (y : ℤ) + d.2 ∧ (y : ℤ) + d.2 < (fullSize : ℤ) ∧
      g.2.testBit ((((y : ℤ) + d.2).toNat) * fullSize + (((x : ℤ) + d.1).toNat)) = true) →
    (l.foldl pass2Cell g).2.testBit (y * fullSize + x) = true
  | [], _, _, _, hm, _ => absurd hm (by simp)
  | c :: r, g, y, x, hm, hnb => by
    rcases List.mem_cons.1 hm with he | he
    · rw [List.foldl_cons]
      apply pass2_bit_mono
      rw [← he]
      show (pass2Cell g (y, x)).2.testBit (y * fullSize + x) = true
      unfold pass2Cell
      by_cases hset : g.2.testBit (y * fullSize + x) = false
      · rw [if_pos hset, if_pos (gatherNeighbors_pos g.1 g.2 y x hnb)]
        simp [Nat.testBit_or, Nat.testBit_two_pow_self]
      · rw [if_neg hset]
        simpa using hset
    · rw [List.foldl_cons]
      apply pass2_bit_of_mem r _ y x he
      obtain ⟨d, hd, h1, h2, h3, h4, h5⟩ := hnb
      exact ⟨d, hd, h1, h2, h3, h4, pass2Cell_bit_mono g c _ h5⟩

theorem mem_cellOrder (y x : ℕ) (hy : y < fullSize) (hx : x < fullSize) :
    (y, x) ∈ cellOrder := by
  simp only [cellOrder, List.mem_flatMap, List.mem_map, List.mem_range]
  exact ⟨y, hy, x, hx, rfl⟩

/-- On a fully populated chunk set, every grid cell is set once the
interpolation pass has run. -/
theorem interp_all_set (chunks : List (Option Chunk))
    (hfull : ∀ ci, ci < 256 → ∃ ch, chunks.getD ci none = some ch ∧
      145 ≤ ch.vertices.length) :
    ∀ i, i < 257 * 257 → (interp (pass1 chunks)).2.testBit i = true := by
  intro i hi
  have hyx : i = (i / 257) * 257 + i % 257 := by omega
  have hylt : i / 257 < 257 := by omega
  have hxlt : i % 257 < 257 := by omega
  rw [hyx]
  unfold interp
  by_cases hpar : (i % 257 + i / 257) % 2 = 0
  · exact pass2_bit_mono cellOrder _ _
      (pass1_even_set chunks hfull (i / 257) (i % 257) hylt hxlt hpar)
  · show (cellOrder.foldl pass2Cell ((pass1 chunks).heights, (pass1 chunks).hset)).2.testBit
      (i / 257 * fullSize + i % 257) = true
    apply pass2_bit_of_mem cellOrder _ (i / 257) (i % 257)
      (mem_cellOrder _ _ hylt hxlt)
    by_cases hx2 : i % 257 % 2 = 0
    · have hy1 : 1 ≤ i / 257 := by omega
      refine ⟨((0 : ℤ), (-1 : ℤ)), by unfold neighborList; rw [if_pos hx2]; simp, ?_, ?_, ?_, ?_, ?_⟩
      · show (0 : ℤ) ≤ (i % 257 : ℕ) + 0
        omega
      · show ((i % 257 : ℕ) : ℤ) + 0 < (fullSize : ℤ)
        unfold fullSize
        omega
      · show (0 : ℤ) ≤ ((i / 257 : ℕ) : ℤ) + (-1)
        omega
      · show ((i / 257 : ℕ) : ℤ) + (-1) < (fullSize : ℤ)
        unfold fullSize
        omega
      · have hidx : ((((i / 257 : ℕ) : ℤ) + (-1)).toNat) * fullSize +
            ((((i % 257 : ℕ) : ℤ) + 0).toNat) = (i / 257 - 1) * 257 + i % 257 := by
          unfold fullSize
          omega
        show (pass1 chunks).hset.testBit ((((i / 257 : ℕ) : ℤ) + (-1)).toNat * fullSize +
          (((i % 257 : ℕ) : ℤ) + 0).toNat) = true
        rw [hidx]
        exact pass1_even_set chunks hfull (i / 257 - 1) (i % 257) (by omega) hxlt (by omega)
    · have hx1 : 1 ≤ i % 257 := by omega
      refine ⟨((-1 : ℤ), (0 : ℤ)), by unfold neighborList; rw [if_neg hx2]; simp, ?_, ?_, ?_, ?_, ?_⟩
      · show (0 : ℤ) ≤ ((i % 257 : ℕ) : ℤ) + (-1)
        omega
      · show ((i % 257 : ℕ) : ℤ) + (-1) < (fullSize : ℤ)
        unfold fullSize
        omega
      · show (0 : ℤ) ≤ ((i / 257 : ℕ) : ℤ) + 0
        omega
      · show ((i / 257 : ℕ) : ℤ) + 0 < (fullSize : ℤ)
        unfold fullSize
        omega
      · have hidx : ((((i / 257 : ℕ) : ℤ) + 0).toNat) * fullSize +
            ((((i % 257 : ℕ) : ℤ) + (-1)).toNat) = (i / 257) * 257 + (i % 257 - 1) := by
          unfold fullSize
          omega
        show (pass1 chunks).hset.testBit ((((i / 257 : ℕ) : ℤ) + 0).toNat * fullSize +
          (((i % 257 : ℕ) : ℤ) + (-1)).toNat) = true
        rw [hidx]
        exact pass1_even_set chunks hfull (i / 257) (i % 257 - 1) hylt (by omega) (by omega)

theorem flatFold_heights_length : ∀ (l : List (ℕ × ℚ)) (st : BuildState),
    (l.foldl flatStep st).heights.length = st.heights.length
  | [], _ => rfl
  | s :: r, st => by
    rw [List.foldl_cons, flatFold_heights_length r]
    unfold flatStep
    split
    · simp [List.length_set]
    · rfl

theorem pass2Cell_shape (g : List ℚ × ℕ) (c : ℕ × ℕ) :
    pass2Cell g c = g ∨
    (g.2.testBit (c.1 * fullSize + c.2) = false ∧ ∃ v, pass2Cell g c =
      (g.1.set (c.1 * fullSize + c.2) v, g.2 ||| 2 ^ (c.1 * fullSize + c.2))) := by
  unfold pass2Cell
  split_ifs with h1 h2
  · exact Or.inr ⟨h1, _, rfl⟩
  · exact Or.inl rfl
  · exact Or.inl rfl

theorem pass2_heights_length : ∀ (l : List (ℕ × ℕ)) (g : List ℚ × ℕ),
    (l.foldl pass2Cell g).1.length = g.1.length
  | [], _ => rfl
  | c :: r, g => by
    rw [List.foldl_cons, pass2_heights_length r]
    rcases pass2Cell_shape g c with h | ⟨_, v, h⟩ <;> rw [h]
    simp [List.length_set]

theorem pass1_heights_length (chunks : List (Option Chunk)) :
    (pass1 chunks).heights.length = fullSize * fullSize := by
  rw [pass1_flat, flatFold_heights_length]
  simp [initState]

theorem interp_def (p : BuildState) :
    interp p = cellOrder.foldl pass2Cell (p.heights, p.hset) := rfl

/-- The grid stored by `setHeightDataFromChunks` is the full 257 by 257
grid. -/
theorem heightData_length (chunks : List (Option Chunk)) :
    (interp (pass1 chunks)).1.length = fullSize * fullSize := by
  rw [interp_def, pass2_heights_length]
  rw [show ((pass1 chunks).heights, (pass1 chunks).hset).1 = (pass1 chunks).heights from rfl]
  rw [pass1_heights_length]

/-- A cell never set by the first pass still holds the value it started
with. -/
theorem flatFold_unset_val : ∀ (l : List (ℕ × ℚ)) (st : BuildState) (i : ℕ),
    (l.foldl flatStep st).hset.testBit i = false →
    (l.foldl flatStep st).heights.getD i 0 = st.heights.getD i 0
  | [], _, _, _ => rfl
  | s :: r, st, i, h => by
    rw [List.foldl_cons] at h ⊢
    by_cases hw : st.hset.testBit s.1 = false
    · have hstep : flatStep st s = ⟨st.heights.set s.1 s.2, st.hset ||| 2 ^ s.1,
          updMin st.minH s.2, updMax st.maxH s.2⟩ := by
        unfold flatStep
        rw [if_pos hw]
      rw [hstep] at h ⊢
      by_cases hne : s.1 = i
      · exfalso
        subst hne
        have : (r.foldl flatStep ⟨st.heights.set s.1 s.2, st.hset ||| 2 ^ s.1,
            updMin st.minH s.2, updMax st.maxH s.2⟩).hset.testBit s.1 = true := by
          apply flatFold_bit_mono
          simp [Nat.testBit_or, Nat.testBit_two_pow_self]
        rw [this] at h
        cases h
      · rw [flatFold_unset_val r _ i h]
        simp [List.getD_eq_getElem?_getD, List.getElem?_set, hne]
    · have hstep : flatStep st s = st := by
        unfold flatStep
        rw [if_neg hw]
      rw [hstep] at h ⊢
      exact flatFold_unset_val r st i h

/-- A cell never set by the interpolation pass still holds the value it
started with. -/
theorem pass2_unset_val : ∀ (l : List (ℕ × ℕ)) (g : List ℚ × ℕ) (i : ℕ),
    (l.foldl pass2Cell g).2.testBit i = false →
    (l.foldl pass2Cell g).1.getD i 0 = g.1.getD i 0
  | [], _, _, _ => rfl
  | c :: r, g, i, h => by
    rw [List.foldl_cons] at h ⊢
    rcases pass2Cell_shape g c with hs | ⟨hb, v, hs⟩
    · rw [hs] at h ⊢
      exact pass2_unset_val r g i h
    · rw [hs] at h ⊢
      by_cases hne : c.1 * fullSize + c.2 = i
      · exfalso
        subst hne
        have : (r.foldl pass2Cell (g.1.set (c.1 * fullSize + c.2) v,
            g.2 ||| 2 ^ (c.1 * fullSize + c.2))).2.testBit (c.1 * fullSize + c.2) = true := by
          apply pass2_bit_mono
          simp [Nat.testBit_or, Nat.testBit_two_pow_self]
        rw [this] at h
        cases h
      · rw [pass2_unset_val r _ i h]
        simp [List.getD_eq_getElem?_getD, List.getElem?_set, hne]

theorem getD_replicate_zero (n i : ℕ) : (List.replicate n (0 : ℚ)).getD i 0 = 0 := by
  rw [List.getD_eq_getElem?_getD, List.getElem?_replicate]
  split <;> rfl

/-- The extrema of the first pass are the running extrema over the
first-writer pairs of the flat sample stream. -/
theorem pass1_extrema (chunks : List (Option Chunk)) :
    (pass1 chunks).minH =
      (firstWrites (samplesStream chunks) 0).foldl (fun m s => updMin m s.2) none ∧
    (pass1 chunks).maxH =
      (firstWrites (samplesStream chunks) 0).foldl (fun m s => updMax m s.2) none := by
  rw [pass1_flat]
  exact flatFold_extrema (samplesStream chunks) initState

theorem lor_two_pow_of_testBit (s i : ℕ) (h : s.testBit i = true) :
    s ||| 2 ^ i = s := by
  apply Nat.eq_of_testBit_eq
  intro j
  by_cases hj : j = i
  · subst hj
    simp [Nat.testBit_or, Nat.testBit_two_pow_self, h]
  · simp [Nat.testBit_or, Nat.testBit_two_pow_of_ne (fun he => hj he.symm)]

/-- The set of cells ever targeted by a stream segment, as a bitmap fold. -/
def orFold (seen : ℕ) (l : List (ℕ × ℚ)) : ℕ :=
  l.foldl (fun s p => s ||| 2 ^ p.1) seen

theorem orFold_nil (seen : ℕ) : orFold seen [] = seen := rfl

theorem orFold_cons (seen : ℕ) (s : ℕ × ℚ) (r : List (ℕ × ℚ)) :
    orFold seen (s :: r) = orFold (seen ||| 2 ^ s.1) r := rfl

theorem orFold_mono : ∀ (l : List (ℕ × ℚ)) (seen : ℕ) (i : ℕ),
    seen.testBit i = true → (orFold seen l).testBit i = true
  | [], _, _, h => h
  | s :: r, seen, i, h => by
    rw [orFold_cons]
    exact orFold_mono r _ i (by simp [Nat.testBit_or, h])

theorem orFold_mem : ∀ (l : List (ℕ × ℚ)) (seen : ℕ) (i : ℕ) (v : ℚ),
    (i, v) ∈ l → (orFold seen l).testBit i = true
  | [], _, _, _, hm => absurd hm (by simp)
  | s :: r, seen, i, v, hm => by
    rcases List.mem_cons.1 hm with he | he
    · rw [orFold_cons]
      apply orFold_mono
      have : s.1 = i := by rw [← he]
      rw [← this]
      simp [Nat.testBit_or, Nat.testBit_two_pow_self]
    · rw [orFold_cons]
      exact orFold_mem r _ i v he

theorem firstWrites_cons_skip (s : ℕ × ℚ) (r : List (ℕ × ℚ)) (seen : ℕ)
    (h : seen.testBit s.1 = true) :
    firstWrites (s :: r) seen = firstWrites r seen := by
  simp only [firstWrites]
  rw [if_pos h]

theorem firstWrites_cons_new (s : ℕ × ℚ) (r : List (ℕ × ℚ)) (seen : ℕ)
    (h : seen.testBit s.1 = false) :
    firstWrites (s :: r) seen = s :: firstWrites r (seen ||| 2 ^ s.1) := by
  simp only [firstWrites]
  rw [if_neg (by simp [h])]

theorem firstWrites_append : ∀ (l1 l2 : List (ℕ × ℚ)) (seen : ℕ),
    firstWrites (l1 ++ l2) seen =
      firstWrites l1 seen ++ firstWrites l2 (orFold seen l1)
  | [], l2, seen => by simp [firstWrites, orFold_nil]
  | s :: r, l2, seen => by
    rw [List.cons_append, orFold_cons]
    by_cases h : seen.testBit s.1
    · rw [firstWrites_cons_skip _ _ _ h, firstWrites_cons_skip _ _ _ h,
        firstWrites_append r l2 seen]
      rw [show seen ||| 2 ^ s.1 = seen from lor_two_pow_of_testBit seen s.1 h]
    · have hb : seen.testBit s.1 = false := by simpa using h
      rw [firstWrites_cons_new _ _ _ hb, firstWrites_cons_new _ _ _ hb,
        firstWrites_append r l2 (seen ||| 2 ^ s.1), List.cons_append]

theorem firstWrites_subset : ∀ (l : List (ℕ × ℚ)) (seen : ℕ),
    ∀ s ∈ firstWrites l seen, s ∈ l
  | [], _, s, hm => by simp [firstWrites] at hm
  | p :: r, seen, s, hm => by
    by_cases h : seen.testBit p.1
    · rw [firstWrites_cons_skip _ _ _ h] at hm
      exact List.mem_cons_of_mem _ (firstWrites_subset r seen s hm)
    · rw [firstWrites_cons_new _ _ _ (by simpa using h)] at hm
      rcases List.mem_cons.1 hm with he | he
      · exact he ▸ List.mem_cons_self _ _
      · exact List.mem_cons_of_mem _ (firstWrites_subset r _ s he)

theorem foldl_updMin_const_zero : ∀ (l : List (ℕ × ℚ)),
    (∀ s ∈ l, s.2 = 0) → l.foldl (fun m s => updMin m s.2) (some 0) = some 0
  | [], _ => rfl
  | s :: r, h => by
    rw [List.foldl_cons]
    have hs : s.2 = 0 := h s (List.mem_cons_self _ _)
    have : updMin (some 0) s.2 = some 0 := by
      rw [hs]
      simp [updMin]
    rw [this]
    exact foldl_updMin_const_zero r fun p hp => h p (List.mem_cons_of_mem _ hp)

theorem foldl_updMin_all_zero (l : List (ℕ × ℚ)) (h : ∀ s ∈ l, s.2 = 0)
    (hne : l ≠ []) : l.foldl (fun m s => updMin m s.2) none = some 0 := by
  cases l with
  | nil => exact absurd rfl hne
  | cons s r =>
    rw [List.foldl_cons]
    have hs : s.2 = 0 := h s (List.mem_cons_self _ _)
    have : updMin none s.2 = some 0 := by rw [hs]; rfl
    rw [this]
    exact foldl_updMin_const_zero r fun p hp => h p (List.mem_cons_of_mem _ hp)

theorem samplesStream_def (chunks : List (Option Chunk)) :
    samplesStream chunks = chunkOrder.flatMap (chunkStream chunks) := rfl

theorem chunkSamples_def (chunkX chunkY : ℕ) (ch : Chunk) :
    chunkSamples chunkX chunkY ch =
      (samplePositions.zip ch.vertices).filterMap fun s =>
        if inGrid chunkX chunkY s.1.1 s.1.2 then
          some (targetIdx chunkX chunkY s.1.1 s.1.2, s.2 + ch.position.2.2)
        else none := rfl

/-- The height carried by any emitted sample of a chunk sitting at z-offset
zero with all-zero vertex samples is zero. -/
theorem chunkSamples_zero_val (chunkX chunkY : ℕ) (ch : Chunk)
    (hz : ch.position.2.2 = 0) (hv : ∀ v ∈ ch.vertices, v = 0) :
    ∀ s ∈ chunkSamples chunkX chunkY ch, s.2 = 0 := by
  intro s hm
  rw [chunkSamples_def] at hm
  obtain ⟨a, ha, hfa⟩ := List.mem_filterMap.1 hm
  by_cases hg : inGrid chunkX chunkY a.1.1 a.1.2
  · rw [if_pos hg] at hfa
    have h2 : s.2 = a.2 + ch.position.2.2 := by
      rw [← Option.some_inj.1 hfa]
    have hva : a.2 = 0 := hv a.2 (List.of_mem_zip ha).2
    rw [h2, hva, hz, add_zero]
  · rw [if_neg hg] at hfa
    cases hfa

/-- The per-neighbor accumulation step of `gatherNeighbors`, named. -/
def gatherStep (heights : List ℚ) (hset : ℕ) (y x : ℕ) (acc : ℚ × ℕ) (d : ℤ × ℤ) : ℚ × ℕ :=
  if 0 ≤ (x : ℤ) + d.1 ∧ (x : ℤ) + d.1 < (fullSize : ℤ) ∧
      0 ≤ (y : ℤ) + d.2 ∧ (y : ℤ) + d.2 < (fullSize : ℤ) then
    if hset.testBit ((((y : ℤ) + d.2).toNat) * fullSize + (((x : ℤ) + d.1).toNat)) then
      (acc.1 + heights.getD ((((y : ℤ) + d.2).toNat) * fullSize + (((x : ℤ) + d.1).toNat)) 0,
        acc.2 + 1)
    else acc
  else acc

theorem gatherNeighbors_eq (heights : List ℚ) (hs : ℕ) (y x : ℕ) :
    gatherNeighbors heights hs y x =
      (neighborList x).foldl (gatherStep heights hs y x) (0, 0) := rfl

theorem gatherStep_id (heights : List ℚ) (hs : ℕ) (y x : ℕ) (acc : ℚ × ℕ) (d : ℤ × ℤ)
    (h : (0 ≤ (x : ℤ) + d.1 ∧ (x : ℤ) + d.1 < (fullSize : ℤ) ∧
      0 ≤ (y : ℤ) + d.2 ∧ (y : ℤ) + d.2 < (fullSize : ℤ)) →
      hs.testBit ((((y : ℤ) + d.2).toNat) * fullSize + (((x : ℤ) + d.1).toNat)) = false) :
    gatherStep heights hs y x acc d = acc := by
  unfold gatherStep
  split_ifs with hc ht
  · rw [h hc] at ht
    cases ht
  · rfl
  · rfl

theorem gatherFold_id (heights : List ℚ) (hs : ℕ) (y x : ℕ) :
    ∀ (l : List (ℤ × ℤ)) (acc : ℚ × ℕ),
    (∀ d ∈ l, (0 ≤ (x : ℤ) + d.1 ∧ (x : ℤ) + d.1 < (fullSize : ℤ) ∧
      0 ≤ (y : ℤ) + d.2 ∧ (y : ℤ) + d.2 < (fullSize : ℤ)) →
      hs.testBit ((((y : ℤ) + d.2).toNat) * fullSize + (((x : ℤ) + d.1).toNat)) = false) →
    l.foldl (gatherStep heights hs y x) acc = acc
  | [], _, _ => rfl
  | d :: r, acc, h => by
    rw [List.foldl_cons, gatherStep_id heights hs y x acc d (h d (by simp))]
    exact gatherFold_id heights hs y x r acc (fun e he => h e (by simp [he]))

/-- A cell whose chosen in-bounds neighbors are all unset gathers nothing. -/
theorem gatherNeighbors_zero (heights : List ℚ) (hs : ℕ) (y x : ℕ)
    (h : ∀ d ∈ neighborList x, (0 ≤ (x : ℤ) + d.1 ∧ (x : ℤ) + d.1 < (fullSize : ℤ) ∧
      0 ≤ (y : ℤ) + d.2 ∧ (y : ℤ) + d.2 < (fullSize : ℤ)) →
      hs.testBit ((((y : ℤ) + d.2).toNat) * fullSize + (((x : ℤ) + d.1).toNat)) = false) :
    gatherNeighbors heights hs y x = (0, 0) := by
  rw [gatherNeighbors_eq]
  exact gatherFold_id heights hs y x (neighborList x) (0, 0) h

/-- An even-x cell with both vertical neighbors set gathers their sum with
count 2. -/
theorem gatherNeighbors_even (heights : List ℚ) (hs : ℕ) (y x : ℕ)
    (hx2 : x % 2 = 0) (hy0 : 0 < y) (hy1 : y + 1 < fullSize) (hx1 : x < fullSize)
    (hup : hs.testBit ((y - 1) * fullSize + x) = true)
    (hdn : hs.testBit ((y + 1) * fullSize + x) = true) :
    gatherNeighbors heights hs y x =
      (heights.getD ((y - 1) * fullSize + x) 0 + heights.getD ((y + 1) * fullSize + x) 0, 2) := by
  unfold gatherNeighbors
  rw [show neighborList x = [((0 : ℤ), (-1 : ℤ)), ((0 : ℤ), (1 : ℤ))] from by
    unfold neighborList; rw [if_pos hx2]]
  simp only [List.foldl_cons, List.foldl_nil]
  have hc1 : (0 : ℤ) ≤ (x : ℤ) + 0 ∧ (x : ℤ) + 0 < (fullSize : ℤ) ∧
      (0 : ℤ) ≤ (y : ℤ) + (-1) ∧ (y : ℤ) + (-1) < (fullSize : ℤ) := by
    unfold fullSize at *
    omega
  have hc2 : (0 : ℤ) ≤ (x : ℤ) + 0 ∧ (x : ℤ) + 0 < (fullSize : ℤ) ∧
      (0 : ℤ) ≤ (y : ℤ) + 1 ∧ (y : ℤ) + 1 < (fullSize : ℤ) := by
    unfold fullSize at *
    omega
  have hi1 : (((y : ℤ) + (-1)).toNat) * fullSize + (((x : ℤ) + 0).toNat) =
      (y - 1) * fullSize + x := by
    unfold fullSize
    omega
  have hi2 : (((y : ℤ) + 1).toNat) * fullSize + (((x : ℤ) + 0).toNat) =
      (y + 1) * fullSize + x := by
    unfold fullSize
    omega
  rw [if_pos hc1, hi1, hup, if_pos (rfl : true = true)]
  rw [if_pos hc2, hi2, hdn, if_pos (rfl : true = true)]
  simp

/-- An odd-x cell with both horizontal neighbors set gathers their sum with
count 2. -/
theorem gatherNeighbors_odd (heights : List ℚ) (hs : ℕ) (y x : ℕ)
    (hx2 : x % 2 = 1) (hx0 : 0 < x) (hx1 : x + 1 < fullSize) (hy1 : y < fullSize)
    (hlf : hs.testBit (y * fullSize + (x - 1)) = true)
    (hrt : hs.testBit (y * fullSize + (x + 1)) = true) :
    gatherNeighbors heights hs y x =
      (heights.getD (y * fullSize + (x - 1)) 0 + heights.getD (y * fullSize + (x + 1)) 0, 2) := by
  unfold gatherNeighbors
  rw [show neighborList x = [((-1 : ℤ), (0 : ℤ)), ((1 : ℤ), (0 : ℤ))] from by
    unfold neighborList; rw [if_neg (by omega)]]
  simp only [List.foldl_cons, List.foldl_nil]
  have hc1 : (0 : ℤ) ≤ (x : ℤ) + (-1) ∧ (x : ℤ) + (-1) < (fullSize : ℤ) ∧
      (0 : ℤ) ≤ (y : ℤ) + 0 ∧ (y : ℤ) + 0 < (fullSize : ℤ) := by
    unfold fullSize at *
    omega
  have hc2 : (0 : ℤ) ≤ (x : ℤ) + 1 ∧ (x : ℤ) + 1 < (fullSize : ℤ) ∧
      (0 : ℤ) ≤ (y : ℤ) + 0 ∧ (y : ℤ) + 0 < (fullSize : ℤ) := by
    unfold fullSize at *
    omega
  have hi1 : (((y : ℤ) + 0).toNat) * fullSize + (((x : ℤ) + (-1)).toNat) =
      y * fullSize + (x - 1) := by
    unfold fullSize
    omega
  have hi2 : (((y : ℤ) + 0).toNat) * fullSize + (((x : ℤ) + 1).toNat) =
      y * fullSize + (x + 1) := by
    unfold fullSize
    omega
  rw [if_pos hc1, hi1, hlf, if_pos (rfl : true = true)]
  rw [if_pos hc2, hi2, hrt, if_pos (rfl : true = true)]
  simp

theorem pass2Cell_fill (g : List ℚ × ℕ) (c : ℕ × ℕ)
    (hmiss : g.2.testBit (c.1 * fullSize + c.2) = false) (hsum : ℚ) (hcnt : ℕ)
    (hg : gatherNeighbors g.1 g.2 c.1 c.2 = (hsum, hcnt)) (hpos : 0 < hcnt) :
    pass2Cell g c =
      (g.1.set (c.1 * fullSize + c.2) (hsum / (hcnt : ℚ)), g.2 ||| 2 ^ (c.1 * fullSize + c.2)) := by
  unfold pass2Cell
  rw [if_pos hmiss, hg]
  rw [show ((hsum, hcnt) : ℚ × ℕ).2 = hcnt from rfl, show ((hsum, hcnt) : ℚ × ℕ).1 = hsum from rfl]
  rw [if_pos hpos]

theorem pass2Cell_id_of_set (g : List ℚ × ℕ) (c : ℕ × ℕ)
    (h : g.2.testBit (c.1 * fullSize + c.2) = true) : pass2Cell g c = g := by
  unfold pass2Cell
  rw [if_neg (by simp [h])]

theorem pass2_id_of_all_set : ∀ (l : List (ℕ × ℕ)) (g : List ℚ × ℕ),
    (∀ c ∈ l, g.2.testBit (c.1 * fullSize + c.2) = true) → l.foldl pass2Cell g = g
  | [], _, _ => rfl
  | c :: r, g, h => by
    rw [List.foldl_cons, pass2Cell_id_of_set g c (h c (by simp))]
    exact pass2_id_of_all_set r g (fun e he => h e (by simp [he]))

theorem cellOrder_nodup : cellOrder.Nodup := by
  unfold cellOrder
  rw [List.nodup_flatMap]
  constructor
  · intro y _
    exact List.Nodup.map (fun a b h => (Prod.mk.injEq y a y b ▸ h).2) (List.nodup_range fullSize)
  · apply List.Pairwise.imp ?_ (List.pairwise_lt_range fullSize)
    intro a b hab p hpa hpb
    simp only [List.mem_map, List.mem_range] at hpa hpb
    obtain ⟨x1, _, rfl⟩ := hpa
    obtain ⟨x2, _, h2⟩ := hpb
    exact absurd (congrArg Prod.fst h2.symm) (by simp; omega)

theorem cellOrder_bounds : ∀ c ∈ cellOrder, c.1 < fullSize ∧ c.2 < fullSize := by
  intro c hc
  simp only [cellOrder, List.mem_flatMap, List.mem_map, List.mem_range] at hc
  obtain ⟨y, hy, x, hx, rfl⟩ := hc
  exact ⟨hy, hx⟩

theorem cell_idx_inj {y1 x1 y2 x2 : ℕ} (h1 : x1 < fullSize) (h2 : x2 < fullSize)
    (he : y1 * fullSize + x1 = y2 * fullSize + x2) : y1 = y2 ∧ x1 = x2 := by
  unfold fullSize at *
  omega

/-- The interpolation pass on a grid whose only unset cell is the interior
cell `(y, x)` fills that cell with the exact average of its two chosen
neighbors: the vertical pair for even `x`, the horizontal pair for odd
`x`. -/
theorem interp_single_missing (p : BuildState) (y x : ℕ)
    (hlen : p.heights.length = fullSize * fullSize)
    (hy0 : 0 < y) (hy1 : y + 1 < fullSize) (hx0 : 0 < x) (hx1 : x + 1 < fullSize)
    (hmiss : p.hset.testBit (y * fullSize + x) = false)
    (hall : ∀ i, i < fullSize * fullSize → i ≠ y * fullSize + x → p.hset.testBit i = true) :
    (interp p).2.testBit (y * fullSize + x) = true ∧
    (interp p).1.getD (y * fullSize + x) 0 =
      (p.heights.getD (if x % 2 = 0 then (y - 1) * fullSize + x else y * fullSize + (x - 1)) 0 +
        p.heights.getD (if x % 2 = 0 then (y + 1) * fullSize + x else y * fullSize + (x + 1)) 0)
        / 2 := by
  obtain ⟨l1, l2, hsplit⟩ :=
    List.append_of_mem (mem_cellOrder y x (by omega) (by omega))
  have hnd := cellOrder_nodup
  rw [hsplit, List.nodup_append] at hnd
  have hnotin : (y, x) ∉ l1 := fun hin => hnd.2.2 hin (by simp)
  have hid1 : l1.foldl pass2Cell (p.heights, p.hset) = (p.heights, p.hset) := by
    apply pass2_id_of_all_set
    intro c hc
    have hcb := cellOrder_bounds c (by rw [hsplit]; exact List.mem_append_left _ hc)
    apply hall
    · unfold fullSize at *
      omega
    · intro he
      obtain ⟨hcy, hcx⟩ := cell_idx_inj hcb.2 (by omega) he
      apply hnotin
      rw [← hcy, ← hcx]
      simpa using hc
  have hset1 : ∀ c ∈ l2,
      (p.hset ||| 2 ^ (y * fullSize + x)).testBit (c.1 * fullSize + c.2) = true := by
    intro c hc
    have hcb := cellOrder_bounds c (by
      rw [hsplit]
      exact List.mem_append_right _ (by simp [hc]))
    by_cases he : c.1 * fullSize + c.2 = y * fullSize + x
    · rw [he]
      simp [Nat.testBit_or, Nat.testBit_two_pow_self]
    · have := hall (c.1 * fullSize + c.2) (by unfold fullSize at *; omega) he
      simp [Nat.testBit_or, this]
  by_cases hx2 : x % 2 = 0
  · have hup : p.hset.testBit ((y - 1) * fullSize + x) = true := by
      apply hall
      · unfold fullSize at *
        omega
      · unfold fullSize at *
        omega
    have hdn : p.hset.testBit ((y + 1) * fullSize + x) = true := by
      apply hall
      · unfold fullSize at *
        omega
      · unfold fullSize at *
        omega
    have hg := gatherNeighbors_even p.heights p.hset y x hx2 hy0 hy1 (by omega) hup hdn
    have hfill := pass2Cell_fill (p.heights, p.hset) (y, x) hmiss _ _ hg (by norm_num)
    rw [interp_def, hsplit, List.foldl_append, List.foldl_cons, hid1, hfill,
      pass2_id_of_all_set l2 _ hset1]
    constructor
    · simp [Nat.testBit_or, Nat.testBit_two_pow_self]
    · rw [if_pos hx2, if_pos hx2]
      rw [show ((p.heights.set (y * fullSize + x)
          ((p.heights.getD ((y - 1) * fullSize + x) 0 +
            p.heights.getD ((y + 1) * fullSize + x) 0) / ((2 : ℕ) : ℚ)),
          p.hset ||| 2 ^ (y * fullSize + x)) : List ℚ × ℕ).1 =
        p.heights.set (y * fullSize + x)
          ((p.heights.getD ((y - 1) * fullSize + x) 0 +
            p.heights.getD ((y + 1) * fullSize + x) 0) / ((2 : ℕ) : ℚ)) from rfl]
      rw [List.getD_eq_getElem?_getD, List.getElem?_set_self (by
        rw [hlen]
        unfold fullSize at *
        omega)]
      norm_num
  · have hx2o : x % 2 = 1 := by omega
    have hlf : p.hset.testBit (y * fullSize + (x - 1)) = true := by
      apply hall
      · unfold fullSize at *
        omega
      · unfold fullSize at *
        omega
    have hrt : p.hset.testBit (y * fullSize + (x + 1)) = true := by
      apply hall
      · unfold fullSize at *
        omega
      · unfold fullSize at *
        omega
    have hg := gatherNeighbors_odd p.heights p.hset y x hx2o hx0 hx1 (by omega) hlf hrt
    have hfill := pass2Cell_fill (p.heights, p.hset) (y, x) hmiss _ _ hg (by norm_num)
    rw [interp_def, hsplit, List.foldl_append, List.foldl_cons, hid1, hfill,
      pass2_id_of_all_set l2 _ hset1]
    constructor
    · simp [Nat.testBit_or, Nat.testBit_two_pow_self]
    · rw [if_neg hx2, if_neg hx2]
      rw [show ((p.heights.set (y * fullSize + x)
          ((p.heights.getD (y * fullSize + (x - 1)) 0 +
            p.heights.getD (y * fullSize + (x + 1)) 0) / ((2 : ℕ) : ℚ)),
          p.hset ||| 2 ^ (y * fullSize + x)) : List ℚ × ℕ).1 =
        p.heights.set (y * fullSize + x)
          ((p.heights.getD (y * fullSize + (x - 1)) 0 +
            p.heights.getD (y * fullSize + (x + 1)) 0) / ((2 : ℕ) : ℚ)) from rfl]
      rw [List.getD_eq_getElem?_getD, List.getElem?_set_self (by
        rw [hlen]
        unfold fullSize at *
        omega)]
      norm_num

/-- A still-unset cell whose chosen in-bounds neighbors are all unset is
left unchanged by its interpolation step. -/
theorem pass2Cell_noNeighbors (g : List ℚ × ℕ) (y x : ℕ)
    (hmiss : g.2.testBit (y * fullSize + x) = false)
    (h : ∀ d ∈ neighborList x, (0 ≤ (x : ℤ) + d.1 ∧ (x : ℤ) + d.1 < (fullSize : ℤ) ∧
      0 ≤ (y : ℤ) + d.2 ∧ (y : ℤ) + d.2 < (fullSize : ℤ)) →
      g.2.testBit ((((y : ℤ) + d.2).toNat) * fullSize + (((x : ℤ) + d.1).toNat)) = false) :
    pass2Cell g (y, x) = g := by
  unfold pass2Cell
  rw [if_pos hmiss, gatherNeighbors_zero g.1 g.2 y x h]
  rw [show (((0 : ℚ), (0 : ℕ)) : ℚ × ℕ).2 = 0 from rfl]
  rw [if_neg (by norm_num)]

/-- A cell left unset by the whole build keeps its zero default. -/
theorem interp_unset_zero (chunks : List (Option Chunk)) (i : ℕ)
    (h : (interp (pass1 chunks)).2.testBit i = false) :
    (interp (pass1 chunks)).1.getD i 0 = 0 := by
  have hp1 : (pass1 chunks).hset.testBit i = false := by
    cases hb : (pass1 chunks).hset.testBit i with
    | false => rfl
    | true =>
      exfalso
      rw [interp_def] at h
      rw [pass2_bit_mono cellOrder ((pass1 chunks).heights, (pass1 chunks).hset) i hb] at h
      cases h
  rw [interp_def] at h ⊢
  rw [pass2_unset_val cellOrder _ i h]
  rw [show (((pass1 chunks).heights, (pass1 chunks).hset) : List ℚ × ℕ).1 =
    (pass1 chunks).heights from rfl]
  rw [pass1_flat]
  rw [flatFold_unset_val (samplesStream chunks) initState i (by rw [← pass1_flat]; exact hp1)]
  rw [show initState.heights = List.replicate (fullSize * fullSize) (0 : ℚ) from rfl]
  exact getD_replicate_zero _ _

theorem pass2Cell_zeroSet (hts : List ℚ) (c : ℕ × ℕ) : pass2Cell (hts, 0) c = (hts, 0) := by
  obtain ⟨y, x⟩ := c
  exact pass2Cell_noNeighbors (hts, 0) y x (Nat.zero_testBit _) (fun d _ _ => Nat.zero_testBit _)

theorem pass2_fold_zeroSet : ∀ (l : List (ℕ × ℕ)) (hts : List ℚ),
    l.foldl pass2Cell (hts, 0) = (hts, 0)
  | [], _ => rfl
  | c :: r, hts => by
    rw [List.foldl_cons, pass2Cell_zeroSet hts c]
    exact pass2_fold_zeroSet r hts

theorem flatMap_chunkStream_nil : ∀ l : List (ℕ × ℕ),
    l.flatMap (chunkStream ([] : List (Option Chunk))) = []
  | [] => rfl
  | p :: r => by
    rw [List.flatMap_cons, chunkStream_none [] p rfl, flatMap_chunkStream_nil r]
    rfl

theorem samplesStream_nil : samplesStream ([] : List (Option Chunk)) = [] := by
  rw [samplesStream_def]
  exact flatMap_chunkStream_nil chunkOrder

theorem pass1_nil : pass1 ([] : List (Option Chunk)) = initState := by
  rw [pass1_flat, samplesStream_nil]
  rfl

theorem interp_nil_unset (i : ℕ) :
    (interp (pass1 ([] : List (Option Chunk)))).2.testBit i = false := by
  rw [interp_def, pass1_nil]
  rw [show initState.heights = List.replicate (fullSize * fullSize) (0 : ℚ) from rfl,
    show initState.hset = 0 from rfl]
  rw [pass2_fold_zeroSet]
  exact Nat.zero_testBit i

theorem getD_replicate_lt (n i : ℕ) (q : ℚ) (h : i < n) :
    (List.replicate n q).getD i 0 = q := by
  rw [List.getD_eq_getElem?_getD, List.getElem?_replicate, if_pos h]
  rfl

/-- A grid state whose only unset cell is cell 259 (row 1, column 2), with
every height at 7. -/
def c6wp : BuildState :=
  ⟨List.replicate (fullSize * fullSize) (7 : ℚ), (2 ^ (fullSize * fullSize) - 1) ^^^ 2 ^ 259,
    none, none⟩

theorem c6wp_unset : c6wp.hset.testBit (1 * fullSize + 2) = false := by
  rw [show c6wp.hset = (2 ^ (fullSize * fullSize) - 1) ^^^ 2 ^ 259 from rfl]
  rw [show 1 * fullSize + 2 = 259 from by unfold fullSize; norm_num]
  rw [Nat.testBit_xor, Nat.testBit_two_pow_sub_one, Nat.testBit_two_pow_self]
  rw [decide_eq_true (by unfold fullSize; norm_num : 259 < fullSize * fullSize)]
  rfl

theorem c6wp_rest : ∀ i, i < fullSize * fullSize → i ≠ 1 * fullSize + 2 →
    c6wp.hset.testBit i = true := by
  intro i hi hne
  rw [show c6wp.hset = (2 ^ (fullSize * fullSize) - 1) ^^^ 2 ^ 259 from rfl]
  rw [Nat.testBit_xor, Nat.testBit_two_pow_sub_one, decide_eq_true hi]
  rw [Nat.testBit_two_pow_of_ne (by unfold fullSize at hne; omega)]
  rfl

/-- C6: in the builder's second pass every still-unset cell is filled with
the average of its set orthogonal neighbors chosen by X parity alone:
with even X, a cell with both vertical neighbors (row plus and minus one)
set receives their average; with odd X, a cell with both horizontal
neighbors (column plus and minus one) set receives their average; a
still-unset cell whose chosen in-bounds neighbors are all unset stays
unchanged; a cell left unset by the whole build keeps its zero-initialized
default; and on a grid missing a single interior cell, the full pass sets
that cell to the exact average of its two parity-chosen neighbors. -/
theorem setHeightDataFromChunks_interpolation :
    (∀ (g : List ℚ × ℕ) (y x : ℕ), x % 2 = 0 → 0 < y → y + 1 < fullSize → x < fullSize →
      g.2.testBit (y * fullSize + x) = false →
      g.2.testBit ((y - 1) * fullSize + x) = true →
      g.2.testBit ((y + 1) * fullSize + x) = true →
      pass2Cell g (y, x) =
        (g.1.set (y * fullSize + x)
          ((g.1.getD ((y - 1) * fullSize + x) 0 + g.1.getD ((y + 1) * fullSize + x) 0) / 2),
          g.2 ||| 2 ^ (y * fullSize + x))) ∧
    (∀ (g : List ℚ × ℕ) (y x : ℕ), x % 2 = 1 → 0 < x → x + 1 < fullSize → y < fullSize →
      g.2.testBit (y * fullSize + x) = false →
      g.2.testBit (y * fullSize + (x - 1)) = true →
      g.2.testBit (y * fullSize + (x + 1)) = true →
      pass2Cell g (y, x) =
        (g.1.set (y * fullSize + x)
          ((g.1.getD (y * fullSize + (x - 1)) 0 + g.1.getD (y * fullSize + (x + 1)) 0) / 2),
          g.2 ||| 2 ^ (y * fullSize + x))) ∧
    (∀ (g : List ℚ × ℕ) (y x : ℕ),
      g.2.testBit (y * fullSize + x) = false →
      (∀ d ∈ neighborList x, (0 ≤ (x : ℤ) + d.1 ∧ (x : ℤ) + d.1 < (fullSize : ℤ) ∧
        0 ≤ (y : ℤ) + d.2 ∧ (y : ℤ) + d.2 < (fullSize : ℤ)) →
        g.2.testBit ((((y : ℤ) + d.2).toNat) * fullSize + (((x : ℤ) + d.1).toNat)) = false) →
      pass2Cell g (y, x) = g) ∧
    (∀ (chunks : List (Option Chunk)) (i : ℕ),
      (interp (pass1 chunks)).2.testBit i = false →
      (interp (pass1 chunks)).1.getD i 0 = 0) ∧
    (∀ (p : BuildState) (y x : ℕ),
      p.heights.length = fullSize * fullSize →
      0 < y → y + 1 < fullSize → 0 < x → x + 1 < fullSize →
      p.hset.testBit (y * fullSize + x) = false →
      (∀ i, i < fullSize * fullSize → i ≠ y * fullSize + x → p.hset.testBit i = true) →
      (interp p).2.testBit (y * fullSize + x) = true ∧
      (interp p).1.getD (y * fullSize + x) 0 =
        (p.heights.getD (if x % 2 = 0 then (y - 1) * fullSize + x else y * fullSize + (x - 1)) 0 +
          p.heights.getD (if x % 2 = 0 then (y + 1) * fullSize + x else y * fullSize + (x + 1)) 0)
          / 2) := by
  refine ⟨?_, ?_, ?_, interp_unset_zero, interp_single_missing⟩
  · intro g y x hx2 hy0 hy1 hx1 hmiss hup hdn
    rw [pass2Cell_fill g (y, x) hmiss _ _
      (gatherNeighbors_even g.1 g.2 y x hx2 hy0 hy1 hx1 hup hdn) (by norm_num)]
    norm_num
  · intro g y x hx2 hx0 hx1 hy1 hmiss hlf hrt
    rw [pass2Cell_fill g (y, x) hmiss _ _
      (gatherNeighbors_odd g.1 g.2 y x hx2 hx0 hx1 hy1 hlf hrt) (by norm_num)]
    norm_num
  · intro g y x hmiss h
    exact pass2Cell_noNeighbors g y x hmiss h

/-- Witness for C6 at concrete grids: a vertical fill, a horizontal fill,
an untouched neighborless cell, a zero default, and a single missing
interior cell filled to the exact average. -/
theorem setHeightDataFromChunks_interpolation_witness :
    pass2Cell ([(4 : ℚ)], 1 + 2 ^ 514) (1, 0) =
      (([(4 : ℚ)]).set 257 2, (1 + 2 ^ 514) ||| 2 ^ 257) ∧
    pass2Cell ([(10 : ℚ), 0, 20], 5) (0, 1) =
      (([(10 : ℚ), 0, 20]).set 1 15, 5 ||| 2 ^ 1) ∧
    pass2Cell (([] : List ℚ), 0) (0, 0) = (([] : List ℚ), 0) ∧
    (interp (pass1 ([] : List (Option Chunk)))).1.getD 5 0 = 0 ∧
    (interp c6wp).1.getD (1 * fullSize + 2) 0 = 7 := by
  refine ⟨?_, ?_, ?_, ?_, ?_⟩
  · rw [setHeightDataFromChunks_interpolation.1 ([(4 : ℚ)], 1 + 2 ^ 514) 1 0 (by decide)
      (by decide) (by decide) (by decide) (by decide) (by decide) (by decide)]
    with_unfolding_all decide
  · rw [setHeightDataFromChunks_interpolation.2.1 ([(10 : ℚ), 0, 20], 5) 0 1 (by decide)
      (by decide) (by decide) (by decide) (by decide) (by decide) (by decide)]
    with_unfolding_all decide
  · exact setHeightDataFromChunks_interpolation.2.2.1 (([] : List ℚ), 0) 0 0 (by decide)
      (by decide)
  · exact setHeightDataFromChunks_interpolation.2.2.2.1 [] 5 (interp_nil_unset 5)
  · rw [(setHeightDataFromChunks_interpolation.2.2.2.2 c6wp 1 2 (by simp [c6wp]) (by decide)
      (by decide) (by decide) (by decide) c6wp_unset c6wp_rest).2]
    rw [if_pos (by norm_num : (2 : ℕ) % 2 = 0), if_pos (by norm_num : (2 : ℕ) % 2 = 0)]
    rw [show c6wp.heights = List.replicate (fullSize * fullSize) (7 : ℚ) from rfl]
    rw [getD_replicate_lt _ _ _ (by unfold fullSize; norm_num),
      getD_replicate_lt _ _ _ (by unfold fullSize; norm_num)]
    norm_num

/-- C5 (amended): on a fully populated chunk set (all 256 chunks present,
each with a complete 145-sample vertex sequence), `setHeightDataFromChunks`
produces the full 257 by 257 grid with every cell set after interpolation,
and its `minHeight`/`maxHeight` are the running extrema over the samples
that are the first to set their cell (samples aimed at an already-set cell,
such as duplicated chunk-boundary positions, are skipped and do not
contribute). -/
theorem setHeightDataFromChunks_fullPopulation (chunks : List (Option Chunk))
    (hfull : ∀ ci, ci < 256 → ∃ ch, chunks.getD ci none = some ch ∧
      145 ≤ ch.vertices.length) :
    (interp (pass1 chunks)).1.length = fullSize * fullSize ∧
    (∀ i, i < fullSize * fullSize → (interp (pass1 chunks)).2.testBit i = true) ∧
    (pass1 chunks).minH =
      (firstWrites (samplesStream chunks) 0).foldl (fun m s => updMin m s.2) none ∧
    (pass1 chunks).maxH =
      (firstWrites (samplesStream chunks) 0).foldl (fun m s => updMax m s.2) none := by
  refine ⟨heightData_length chunks, ?_, (pass1_extrema chunks).1, (pass1_extrema chunks).2⟩
  intro i hi
  have h257 : fullSize * fullSize = 257 * 257 := rfl
  rw [h257] at hi
  exact interp_all_set chunks hfull i hi

/-- An all-zero chunk with 145 samples. -/
def zeroChunk : Chunk := ⟨(0, 0, 0), List.replicate 145 0⟩

/-- A fully populated tile made of all-zero chunks. -/
def fullChunks : List (Option Chunk) := List.replicate 256 (some zeroChunk)

/-- Witness for C5 (amended), at the fully populated all-zero tile. -/
theorem setHeightDataFromChunks_fullPopulation_witness :
    (∀ ci, ci < 256 → ∃ ch, fullChunks.getD ci none = some ch ∧
      145 ≤ ch.vertices.length) ∧
    (∀ i, i < fullSize * fullSize → (interp (pass1 fullChunks)).2.testBit i = true) ∧
    (pass1 fullChunks).minH =
      (firstWrites (samplesStream fullChunks) 0).foldl (fun m s => updMin m s.2) none := by
  have hfull : ∀ ci, ci < 256 → ∃ ch, fullChunks.getD ci none = some ch ∧
      145 ≤ ch.vertices.length := by
    intro ci hci
    refine ⟨zeroChunk, ?_, by with_unfolding_all decide⟩
    rw [show fullChunks = List.replicate 256 (some zeroChunk) from rfl,
      List.getD_eq_getElem?_getD, List.getElem?_replicate, if_pos hci]
    rfl
  exact ⟨hfull, (setHeightDataFromChunks_fullPopulation fullChunks hfull).2.1,
    (setHeightDataFromChunks_fullPopulation fullChunks hfull).2.2.1⟩

/-- A chunk whose first sample is at height -100 and the rest at zero. -/
def negChunk : Chunk := ⟨(0, 0, 0), (-100 : ℚ) :: List.replicate 144 0⟩

/-- A fully populated tile of all-zero chunks, except that chunk 1 starts
with a -100 sample.  The first sample of chunk 1 lands on grid cell 16,
which chunk 0 has already set, so the -100 never reaches the extrema. -/
def cexChunks : List (Option Chunk) :=
  (List.replicate 256 (some zeroChunk)).set 1 (some negChunk)

theorem cexChunks_getD_one : cexChunks.getD 1 none = some negChunk := by
  rw [show cexChunks = (List.replicate 256 (some zeroChunk)).set 1 (some negChunk) from rfl,
    List.getD_eq_getElem?_getD, List.getElem?_set]
  rw [if_pos rfl, if_pos (by simp [List.length_replicate])]
  rfl

theorem cexChunks_getD_ne (ci : ℕ) (hci : ci < 256) (hne : ci ≠ 1) :
    cexChunks.getD ci none = some zeroChunk := by
  rw [show cexChunks = (List.replicate 256 (some zeroChunk)).set 1 (some negChunk) from rfl,
    List.getD_eq_getElem?_getD, List.getElem?_set]
  rw [if_neg (fun h => hne h.symm), List.getElem?_replicate, if_pos hci]
  rfl

/-- The tail of the chunk-slot order, targeting chunk indices 2 to 255. -/
theorem cex_stream_split : samplesStream cexChunks =
    chunkSamples 0 0 zeroChunk ++ (chunkSamples 0 1 negChunk ++
      (chunkOrder.drop 2).flatMap (chunkStream cexChunks)) := by
  rw [samplesStream_def]
  conv_lhs => rw [show chunkOrder = (0, 0) :: (0, 1) :: chunkOrder.drop 2 from by decide]
  rw [List.flatMap_cons, List.flatMap_cons]
  rw [show chunkStream cexChunks (0, 0) = chunkSamples 0 0 zeroChunk from
    chunkStream_some cexChunks (0, 0) zeroChunk
      (by rw [show ((0, 0) : ℕ × ℕ).1 * 16 + ((0, 0) : ℕ × ℕ).2 = 0 from rfl]
          exact cexChunks_getD_ne 0 (by norm_num) (by norm_num))]
  rw [show chunkStream cexChunks (0, 1) = chunkSamples 0 1 negChunk from
    chunkStream_some cexChunks (0, 1) negChunk
      (by rw [show ((0, 1) : ℕ × ℕ).1 * 16 + ((0, 1) : ℕ × ℕ).2 = 1 from rfl]
          exact cexChunks_getD_one)]

theorem cex_rest_zero : ∀ s ∈ (chunkOrder.drop 2).flatMap (chunkStream cexChunks),
    s.2 = 0 := by
  intro s hs
  obtain ⟨p, hp, hsp⟩ := List.mem_flatMap.1 hs
  have hb : 2 ≤ p.1 * 16 + p.2 ∧ p.1 * 16 + p.2 < 256 := by
    have hall : ∀ q ∈ chunkOrder.drop 2, 2 ≤ q.1 * 16 + q.2 ∧ q.1 * 16 + q.2 < 256 := by
      decide
    exact hall p hp
  rw [chunkStream_some cexChunks p zeroChunk
    (cexChunks_getD_ne (p.1 * 16 + p.2) hb.2 (by omega))] at hsp
  exact chunkSamples_zero_val p.1 p.2 zeroChunk (by with_unfolding_all decide)
    (by with_unfolding_all decide) s hsp

theorem cex_minH : (pass1 cexChunks).minH = some 0 := by
  rw [(pass1_extrema cexChunks).1, cex_stream_split, firstWrites_append]
  rw [show chunkSamples 0 1 negChunk =
    ((16 : ℕ), (-100 : ℚ)) :: (chunkSamples 0 1 negChunk).tail from by
      with_unfolding_all decide]
  rw [List.cons_append]
  rw [firstWrites_cons_skip _ _ _ (by with_unfolding_all decide :
    (orFold 0 (chunkSamples 0 0 zeroChunk)).testBit ((16 : ℕ), (-100 : ℚ)).1 = true)]
  apply foldl_updMin_all_zero
  · intro s hs
    rcases List.mem_append.1 hs with h | h
    · have hmem := firstWrites_subset _ _ s h
      exact (by with_unfolding_all decide :
        ∀ t ∈ chunkSamples 0 0 zeroChunk, t.2 = 0) s hmem
    · have hmem := firstWrites_subset _ _ s h
      rcases List.mem_append.1 hmem with h2 | h2
      · exact (by with_unfolding_all decide :
          ∀ t ∈ (chunkSamples 0 1 negChunk).tail, t.2 = 0) s h2
      · exact cex_rest_zero s h2
  · intro hnil
    rw [List.append_eq_nil] at hnil
    exact (by with_unfolding_all decide :
      firstWrites (chunkSamples 0 0 zeroChunk) 0 ≠ []) hnil.1

/-- Counterexample for C5 as stated: `cexChunks` is fully populated, the
value -100 occurs among its samples and is their minimum, yet the computed
`minHeight` is 0, because the -100 sample targets a cell that an earlier
chunk already set and is therefore skipped. -/
theorem setHeightDataFromChunks_extrema_cex :
    (∀ ci, ci < 256 → ∃ ch, cexChunks.getD ci none = some ch ∧
      145 ≤ ch.vertices.length) ∧
    ((16, (-100 : ℚ)) ∈ samplesStream cexChunks) ∧
    (∀ s ∈ samplesStream cexChunks, (-100 : ℚ) ≤ s.2) ∧
    (pass1 cexChunks).minH = some 0 ∧ (0 : ℚ) ≠ -100 := by
  refine ⟨?_, ?_, ?_, cex_minH, by norm_num⟩
  · intro ci hci
    by_cases h1 : ci = 1
    · subst h1
      exact ⟨negChunk, cexChunks_getD_one, by with_unfolding_all decide⟩
    · exact ⟨zeroChunk, cexChunks_getD_ne ci hci h1, by with_unfolding_all decide⟩
  · rw [cex_stream_split]
    refine List.mem_append.2 (Or.inr (List.mem_append.2 (Or.inl ?_)))
    exact (by with_unfolding_all decide :
      ((16 : ℕ), (-100 : ℚ)) ∈ chunkSamples 0 1 negChunk)
  · intro s hs
    rw [cex_stream_split] at hs
    rcases List.mem_append.1 hs with h | h
    · exact (by with_unfolding_all decide :
        ∀ t ∈ chunkSamples 0 0 zeroChunk, (-100 : ℚ) ≤ t.2) s h
    · rcases List.mem_append.1 h with h2 | h2
      · exact (by with_unfolding_all decide :
          ∀ t ∈ chunkSamples 0 1 negChunk, (-100 : ℚ) ≤ t.2) s h2
      · rw [cex_rest_zero s h2]
        norm_num

/-- JS `Math.round`: half-way values round toward positive infinity. -/
def r16Round (q : ℚ) : ℤ := ⌊q + 1 / 2⌋

/-- The 16-bit sample of one height: normalize into the `[minHeight,
maxHeight]` range and scale to `[0, 65535]`. -/
def r16Value (minH maxH h : ℚ) : ℤ := r16Round ((h - minH) / (maxH - minH) * 65535)

/-- `R16Writer.write`: emits each sample as two little-endian bytes at
offset `2 * i`, in grid order, with no header and no padding.  The result
is `none` when the source would throw: a non-square grid length makes
`Buffer.alloc` fail, an equal min and max makes every normalized value
NaN, and an out-of-range 16-bit value makes `writeUInt16LE` throw. -/
def write (heightData : List ℚ) (minH maxH : ℚ) : Option (List ℕ) :=
  if Nat.sqrt heightData.length * Nat.sqrt heightData.length = heightData.length ∧
      minH ≠ maxH ∧
      ∀ h ∈ heightData, 0 ≤ r16Value minH maxH h ∧ r16Value minH maxH h ≤ 65535 then
    some (heightData.flatMap fun h =>
      [(r16Value minH maxH h).toNat % 256, (r16Value minH maxH h).toNat / 256])
  else none

theorem flatMap_pair_length (lo hi : ℚ → ℕ) : ∀ l : List ℚ,
    (l.flatMap fun h => [lo h, hi h]).length = 2 * l.length
  | [] => rfl
  | a :: r => by
    rw [List.flatMap_cons]
    simp only [List.cons_append, List.nil_append, List.length_cons,
      flatMap_pair_length lo hi r, List.length_cons]
    omega

theorem flatMap_pair_getD (lo hi : ℚ → ℕ) : ∀ (l : List ℚ) (i : ℕ), i < l.length →
    (l.flatMap fun h => [lo h, hi h]).getD (2 * i) 0 = lo (l.getD i 0) ∧
    (l.flatMap fun h => [lo h, hi h]).getD (2 * i + 1) 0 = hi (l.getD i 0)
  | [], i, hlt => absurd hlt (by simp)
  | a :: r, 0, _ => by
    rw [List.flatMap_cons]
    simp
  | a :: r, i + 1, hlt => by
    rw [List.flatMap_cons]
    rw [show 2 * (i + 1) = 2 * i + 1 + 1 from by ring]
    simp only [List.cons_append, List.nil_append, List.getD_cons_succ]
    exact flatMap_pair_getD lo hi r i (by simpa using hlt)

theorem getD_mem_of_lt {l : List ℚ} {i : ℕ} (h : i < l.length) : l.getD i 0 ∈ l := by
  rw [List.getD_eq_getElem?_getD, List.getElem?_eq_getElem h]
  exact List.getElem_mem h

/-- C7: on a writable grid (square length, distinct extrema, all samples
normalizing into 16-bit range), `write` succeeds and serializes each cell
as `round((h - minHeight) / (maxHeight - minHeight) * 65535)` in two
little-endian bytes at offset `2 * i`, with total length `2 * n` and no
header or padding; and with `minHeight = 0`, `maxHeight = 65535 * k` the
written value of sample `h` is exactly `round(h / k)`. -/
theorem write_serialization (heightData : List ℚ) (minH maxH : ℚ)
    (hsq : Nat.sqrt heightData.length * Nat.sqrt heightData.length = heightData.length)
    (hne : minH ≠ maxH)
    (hrange : ∀ h ∈ heightData, 0 ≤ r16Value minH maxH h ∧ r16Value minH maxH h ≤ 65535) :
    (∃ bytes, write heightData minH maxH = some bytes ∧
      bytes.length = 2 * heightData.length ∧
      ∀ i, i < heightData.length →
        bytes.getD (2 * i) 0 + 256 * bytes.getD (2 * i + 1) 0 =
          (r16Value minH maxH (heightData.getD i 0)).toNat ∧
        bytes.getD (2 * i) 0 < 256 ∧ bytes.getD (2 * i + 1) 0 < 256) ∧
    ∀ (k h : ℚ), k ≠ 0 → r16Value 0 (65535 * k) h = r16Round (h / k) := by
  constructor
  · refine ⟨heightData.flatMap fun h =>
      [(r16Value minH maxH h).toNat % 256, (r16Value minH maxH h).toNat / 256], ?_, ?_, ?_⟩
    · unfold write
      rw [if_pos ⟨hsq, hne, hrange⟩]
    · exact flatMap_pair_length _ _ heightData
    · intro i hlt
      obtain ⟨h1, h2⟩ := flatMap_pair_getD (fun h => (r16Value minH maxH h).toNat % 256)
        (fun h => (r16Value minH maxH h).toNat / 256) heightData i hlt
      rw [h1, h2]
      have hb := hrange (heightData.getD i 0) (getD_mem_of_lt hlt)
      refine ⟨Nat.mod_add_div _ _, Nat.mod_lt _ (by norm_num), ?_⟩
      have : (r16Value minH maxH (heightData.getD i 0)).toNat ≤ 65535 := by omega
      omega
  · intro k h hk
    unfold r16Value
    have he : (h - 0) / (65535 * k - 0) * 65535 = h / k := by
      rw [sub_zero, sub_zero]
      field_simp
      ring
    rw [he]

/-- Witness for C7: a one-cell grid with sample 30000 in range `[0, 65535]`
serializes to the bytes of 30000, and the `k`-scaled form reduces to
`round(h / k)` at `k = 3`, `h = 9`. -/
theorem write_serialization_witness :
    (Nat.sqrt ([(30000 : ℚ)] : List ℚ).length * Nat.sqrt ([(30000 : ℚ)] : List ℚ).length =
      ([(30000 : ℚ)] : List ℚ).length) ∧
    ((0 : ℚ) ≠ 65535) ∧
    (∀ h ∈ ([(30000 : ℚ)] : List ℚ), 0 ≤ r16Value 0 65535 h ∧ r16Value 0 65535 h ≤ 65535) ∧
    (∃ bytes, write [(30000 : ℚ)] 0 65535 = some bytes ∧
      bytes.length = 2 * ([(30000 : ℚ)] : List ℚ).length ∧
      ∀ i, i < ([(30000 : ℚ)] : List ℚ).length →
        bytes.getD (2 * i) 0 + 256 * bytes.getD (2 * i + 1) 0 =
          (r16Value 0 65535 (([(30000 : ℚ)] : List ℚ).getD i 0)).toNat ∧
        bytes.getD (2 * i) 0 < 256 ∧ bytes.getD (2 * i + 1) 0 < 256) ∧
    r16Value 0 (65535 * 3) 9 = r16Round (9 / 3) := by
  have h1 : Nat.sqrt ([(30000 : ℚ)] : List ℚ).length *
      Nat.sqrt ([(30000 : ℚ)] : List ℚ).length = ([(30000 : ℚ)] : List ℚ).length := by
    decide
  have h2 : (0 : ℚ) ≠ 65535 := by norm_num
  have h3 : ∀ h ∈ ([(30000 : ℚ)] : List ℚ),
      0 ≤ r16Value 0 65535 h ∧ r16Value 0 65535 h ≤ 65535 := by
    with_unfolding_all decide
  exact ⟨h1, h2, h3, (write_serialization [(30000 : ℚ)] 0 65535 h1 h2 h3).1,
    (write_serialization [(30000 : ℚ)] 0 65535 h1 h2 h3).2 3 9 (by norm_num)⟩

end R16Writer


namespace TabMaps

/-- A row of `GameObjects.db2`: the display identifier, the owning map
(`OwnerID`), and a tag distinguishing otherwise-identical rows. -/
structure GObjRow where
  DisplayID : ℕ
  OwnerID : ℕ
  tag : ℕ
deriving DecidableEq

/-- Insertion-ordered map of owning-map ID to its object set, as built by
`collectGameObjects`: a fresh key is appended, an existing key has the row
added to its set (JS `Set` preserves insertion order). -/
def mapInsert (m : List (ℕ × List GObjRow)) (k : ℕ) (r : GObjRow) :
    List (ℕ × List GObjRow) :=
  match m with
  | [] => [(k, [r])]
  | e :: rest => if e.1 = k then (e.1, e.2 ++ [r]) :: rest else e :: mapInsert rest k r

def mapLookup (m : List (ℕ × List GObjRow)) (k : ℕ) : Option (List GObjRow) :=
  match m with
  | [] => none
  | e :: rest => if e.1 = k then some e.2 else mapLookup rest k

/-- One row of the index-building loop: rows whose `DisplayID` has no
`GameObjectDisplayInfo` row (`fidRow === null`) are skipped entirely. -/
def gstep (idTable : ℕ → Option ℕ) (m : List (ℕ × List GObjRow)) (row : GObjRow) :
    List (ℕ × List GObjRow) :=
  match idTable row.DisplayID with
  | none => m
  | some _ => mapInsert m row.OwnerID row

/-- The `gameObjectsDB2` index keyed by `OwnerID`.  The source builds it
once and caches it; a single query sees exactly this index. -/
def buildIndex (idTable : ℕ → Option ℕ) (rows : List GObjRow) :
    List (ℕ × List GObjRow) :=
  rows.foldl (gstep idTable) []

/-- `collectGameObjects(mapID, filter)`: look the map up in the index and
keep the objects passing `filter !== undefined && filter(obj)`. -/
def collectGameObjects (idTable : ℕ → Option ℕ) (rows : List GObjRow) (mapID : ℕ)
    (filter : Option (GObjRow → Bool)) : List GObjRow :=
  match mapLookup (buildIndex idTable rows) mapID with
  | none => []
  | some objs => objs.filter fun obj =>
      match filter with
      | none => false
      | some f => f obj

theorem mapInsert_lookup : ∀ (m : List (ℕ × List GObjRow)) (k : ℕ) (r : GObjRow) (j : ℕ),
    mapLookup (mapInsert m k r) j =
      if j = k then some ((mapLookup m k).getD [] ++ [r]) else mapLookup m j
  | [], k, r, j => by
    by_cases h : j = k <;> simp_all [mapInsert, mapLookup, eq_comm]
  | e :: rest, k, r, j => by
    by_cases h1 : e.1 = k <;> by_cases h2 : j = k <;>
      simp_all [mapInsert, mapLookup, mapInsert_lookup rest, eq_comm]

/-- Every object in any bucket of the index has a resolved display
identifier. -/
theorem buildIndex_resolved (idTable : ℕ → Option ℕ) : ∀ (rows : List GObjRow)
    (m : List (ℕ × List GObjRow)),
    (∀ k objs, mapLookup m k = some objs → ∀ x ∈ objs, (idTable x.DisplayID).isSome = true) →
    ∀ k objs, mapLookup (rows.foldl (gstep idTable) m) k = some objs →
      ∀ x ∈ objs, (idTable x.DisplayID).isSome = true
  | [], m, hm, k, objs, hlk => hm k objs hlk
  | row :: rest, m, hm, k, objs, hlk => by
    rw [List.foldl_cons] at hlk
    refine buildIndex_resolved idTable rest (gstep idTable m row) ?_ k objs hlk
    intro k' objs' hlk' x hx
    unfold gstep at hlk'
    cases hd : idTable row.DisplayID with
    | none =>
      rw [hd] at hlk'
      exact hm k' objs' hlk' x hx
    | some fid =>
      rw [hd, mapInsert_lookup m row.OwnerID row k'] at hlk'
      by_cases hk : k' = row.OwnerID
      · rw [if_pos hk] at hlk'
        cases hlk'
        rcases List.mem_append.1 hx with hx2 | hx2
        · cases ho : mapLookup m row.OwnerID with
          | none => rw [ho] at hx2; cases hx2
          | some objs0 =>
            rw [ho] at hx2
            exact hm row.OwnerID objs0 ho x hx2
        · rw [List.mem_singleton.1 hx2, hd]
          rfl
      · rw [if_neg hk] at hlk'
        exact hm k' objs' hlk' x hx


/-- C8: `collectGameObjects` never returns an object whose display
identifier failed to resolve: a row whose `DisplayID` has no
`GameObjectDisplayInfo` row is absent from every bucket of the index, and
from every query result, even when its owning map matches the query. -/
theorem collectGameObjects_excludes_unresolved (idTable : ℕ → Option ℕ)
    (rows : List GObjRow) (r : GObjRow) (hr : idTable r.DisplayID = none) :
    (∀ k objs, mapLookup (buildIndex idTable rows) k = some objs → r ∉ objs) ∧
    (∀ (mapID : ℕ) (filter : Option (GObjRow → Bool)),
      r ∉ collectGameObjects idTable rows mapID filter) := by
  have hidx : ∀ k objs, mapLookup (buildIndex idTable rows) k = some objs → r ∉ objs := by
    intro k objs hlk hmem
    have := buildIndex_resolved idTable rows []
      (by intro k' objs' hlk'; cases hlk') k objs hlk r hmem
    rw [hr] at this
    cases this
  refine ⟨hidx, ?_⟩
  intro mapID filter hmem
  unfold collectGameObjects at hmem
  cases hlk : mapLookup (buildIndex idTable rows) mapID with
  | none =>
    rw [hlk] at hmem
    cases hmem
  | some objs =>
    rw [hlk] at hmem
    exact hidx mapID objs hlk (List.mem_of_mem_filter hmem)

/-- Witness for C8: a single row with an unresolvable display ID, queried
on its own owning map with an accept-everything predicate, is still
excluded. -/
theorem collectGameObjects_excludes_unresolved_witness :
    (fun d => if d = 1 then some 100 else none) (⟨2, 5, 0⟩ : GObjRow).DisplayID = none ∧
    (⟨2, 5, 0⟩ : GObjRow) ∉ collectGameObjects (fun d => if d = 1 then some 100 else none)
      [⟨2, 5, 0⟩] 5 (some fun _ => true) :=
  ⟨by decide,
    (collectGameObjects_excludes_unresolved (fun d => if d = 1 then some 100 else none)
      [⟨2, 5, 0⟩] ⟨2, 5, 0⟩ (by decide)).2 5 (some fun _ => true)⟩

/-- C9: a query with an undefined predicate returns the empty set: the
guard `filter !== undefined && filter(obj)` admits no object, whatever the
index holds for the queried map. -/
theorem collectGameObjects_undefined_filter (idTable : ℕ → Option ℕ)
    (rows : List GObjRow) (mapID : ℕ) :
    collectGameObjects idTable rows mapID none = [] := by
  unfold collectGameObjects
  cases mapLookup (buildIndex idTable rows) mapID with
  | none => rfl
  | some objs => simp

/-- The per-tile product of `adt.export` relevant to the orchestrator: the
tile's height extrema (read off the tile's heightmap writer) and the
identifier logged for the export. -/
structure TileResult where
  minH : ℚ
  maxH : ℚ
  outId : ℕ
deriving DecidableEq

/-- The mutable state of the first export pass: the cancellation-poll
counter, the collected heightmap writers, the successful ADT exports, the
per-tile success marks, and the running global extrema. -/
structure P1State where
  polls : ℕ
  writers : List TileResult
  adtExports : List (ℕ × ℕ)
  marks : List (ℕ × Bool)
  gMin : Option ℚ
  gMax : Option ℚ
deriving DecidableEq

def initP1 : P1State := ⟨0, [], [], [], none, none⟩

/-- Pass 1 of `exportSelectedMap`: for each selected tile, poll
cancellation (breaking if set), export the tile inside try/catch (a
failure marks the tile failed and continues), track the successful export,
and — when heightmap export is enabled — keep the tile's writer and fold
its extrema into the global min/max. -/
def pass1Loop (cancel : ℕ → Bool) (hm : Bool) (exportTile : ℕ → Except ℕ TileResult) :
    List ℕ → P1State → P1State
  | [], st => st
  | t :: rest, st =>
    if cancel st.polls then { st with polls := st.polls + 1 }
    else
      match exportTile t with
      | Except.error _ =>
          pass1Loop cancel hm exportTile rest
            { st with polls := st.polls + 1, marks := st.marks ++ [(t, false)] }
      | Except.ok r =>
          if hm then
            pass1Loop cancel hm exportTile rest
              { polls := st.polls + 1,
                writers := st.writers ++ [r],
                adtExports := st.adtExports ++ [(r.outId, t)],
                marks := st.marks ++ [(t, true)],
                gMin := R16Writer.updMin st.gMin r.minH,
                gMax := R16Writer.updMax st.gMax r.maxH }
          else
            pass1Loop cancel hm exportTile rest
              { st with
                polls := st.polls + 1
                adtExports := st.adtExports ++ [(r.outId, t)]
                marks := st.marks ++ [(t, true)] }

/-- Pass 2 of `exportSelectedMap`: walk the collected writers, polling
cancellation before each (breaking if set), and write each heightmap file
inside try/catch.  Returns the final poll counter and the writers whose
files were written. -/
def pass2Loop (cancel : ℕ → Bool) (writeOk : TileResult → Bool) :
    List TileResult → ℕ → List TileResult → ℕ × List TileResult
  | [], p, written => (p, written)
  | w :: rest, p, written =>
    if cancel p then (p + 1, written)
    else if writeOk w then pass2Loop cancel writeOk rest (p + 1) (written ++ [w])
    else pass2Loop cancel writeOk rest (p + 1) written

/-- The observable outcome of `exportSelectedMap`: the heightmap files
written, the metadata manifest (tile count and global height range) if
emitted, the export-paths log of successful exports, and the per-tile
marks. -/
structure ExportResult where
  written : List TileResult
  manifest : Option (ℕ × Option ℚ × Option ℚ)
  log : List ℕ
  marks : List (ℕ × Bool)
deriving DecidableEq

/-- The tile-export orchestrator.  With no tiles selected it only raises a
toast.  Otherwise pass 1 runs, then — whenever any writer was collected —
pass 2 runs and the metadata manifest is written (the manifest write is
inside the `r16Writers.length > 0` block but after pass 2's loop, not
guarded by cancellation); the export-paths log always records the
successful exports of pass 1. -/
def exportSelectedMap (cancel : ℕ → Bool) (hm : Bool)
    (exportTile : ℕ → Except ℕ TileResult) (writeOk : TileResult → Bool)
    (exportTiles : List ℕ) : Option ExportResult :=
  if exportTiles.length = 0 then none
  else if 0 < (pass1Loop cancel hm exportTile exportTiles initP1).writers.length then
    some ⟨(pass2Loop cancel writeOk (pass1Loop cancel hm exportTile exportTiles initP1).writers
        (pass1Loop cancel hm exportTile exportTiles initP1).polls []).2,
      some ((pass1Loop cancel hm exportTile exportTiles initP1).writers.length,
        (pass1Loop cancel hm exportTile exportTiles initP1).gMin,
        (pass1Loop cancel hm exportTile exportTiles initP1).gMax),
      (pass1Loop cancel hm exportTile exportTiles initP1).adtExports.map (fun e => e.1),
      (pass1Loop cancel hm exportTile exportTiles initP1).marks⟩
  else
    some ⟨[], none,
      (pass1Loop cancel hm exportTile exportTiles initP1).adtExports.map (fun e => e.1),
      (pass1Loop cancel hm exportTile exportTiles initP1).marks⟩

/-- A cancellation seen at the first pass-2 poll writes nothing. -/
theorem pass2Loop_cancelled (cancel : ℕ → Bool) (writeOk : TileResult → Bool) :
    ∀ (l : List TileResult) (p : ℕ) (w : List TileResult), cancel p = true →
    (pass2Loop cancel writeOk l p w).2 = w
  | [], _, _, _ => rfl
  | x :: rest, p, w, hc => by
    unfold pass2Loop
    rw [hc]
    rfl

/-- Without cancellation, pass 2 writes exactly the writers whose write
succeeds, in order. -/
theorem pass2Loop_noCancel (cancel : ℕ → Bool) (writeOk : TileResult → Bool)
    (hnc : ∀ n, cancel n = false) :
    ∀ (l : List TileResult) (p : ℕ) (w : List TileResult),
    (pass2Loop cancel writeOk l p w).2 = w ++ l.filter writeOk
  | [], _, _ => by simp [pass2Loop]
  | x :: rest, p, w => by
    unfold pass2Loop
    rw [hnc p]
    by_cases hw : writeOk x
    · rw [if_neg (by simp), if_pos hw, pass2Loop_noCancel cancel writeOk hnc rest]
      simp [List.filter_cons, hw]
    · rw [if_neg (by simp), if_neg hw, pass2Loop_noCancel cancel writeOk hnc rest]
      simp [List.filter_cons, hw]

/-- Without cancellation, pass 1 processes every tile: each tile is marked
with its own success, failures are skipped everywhere else, and successes
feed the export log, the writer list (when heightmap export is on) and the
running global extrema. -/
theorem pass1Loop_noCancel (cancel : ℕ → Bool) (hm : Bool)
    (exportTile : ℕ → Except ℕ TileResult) (hnc : ∀ n, cancel n = false) :
    ∀ (l : List ℕ) (st : P1State),
    (pass1Loop cancel hm exportTile l st).marks =
      st.marks ++ l.map (fun t => (t, ((exportTile t).toOption).isSome)) ∧
    (pass1Loop cancel hm exportTile l st).adtExports =
      st.adtExports ++
        l.filterMap (fun t => ((exportTile t).toOption).map fun r => (r.outId, t)) ∧
    (pass1Loop cancel hm exportTile l st).writers =
      st.writers ++ (if hm then l.filterMap (fun t => (exportTile t).toOption) else []) ∧
    (pass1Loop cancel hm exportTile l st).gMin =
      (if hm then (l.filterMap (fun t => (exportTile t).toOption)).foldl
        (fun m r => R16Writer.updMin m r.minH) st.gMin else st.gMin) ∧
    (pass1Loop cancel hm exportTile l st).gMax =
      (if hm then (l.filterMap (fun t => (exportTile t).toOption)).foldl
        (fun m r => R16Writer.updMax m r.maxH) st.gMax else st.gMax)
  | [], st => by simp [pass1Loop]
  | t :: rest, st => by
    unfold pass1Loop
    rw [hnc st.polls, if_neg (by simp)]
    cases he : exportTile t with
    | error e =>
      obtain ⟨h1, h2, h3, h4, h5⟩ := pass1Loop_noCancel cancel hm exportTile hnc rest
        { st with polls := st.polls + 1, marks := st.marks ++ [(t, false)] }
      refine ⟨?_, ?_, ?_, ?_, ?_⟩ <;> simp_all [Except.toOption]
    | ok r =>
      by_cases hhm : hm
      · rw [if_pos hhm]
        obtain ⟨h1, h2, h3, h4, h5⟩ := pass1Loop_noCancel cancel hm exportTile hnc rest
          { polls := st.polls + 1,
            writers := st.writers ++ [r],
            adtExports := st.adtExports ++ [(r.outId, t)],
            marks := st.marks ++ [(t, true)],
            gMin := R16Writer.updMin st.gMin r.minH,
            gMax := R16Writer.updMax st.gMax r.maxH }
        refine ⟨?_, ?_, ?_, ?_, ?_⟩ <;> simp_all [Except.toOption]
      · rw [if_neg hhm]
        obtain ⟨h1, h2, h3, h4, h5⟩ := pass1Loop_noCancel cancel hm exportTile hnc rest
          { st with
            polls := st.polls + 1
            adtExports := st.adtExports ++ [(r.outId, t)]
            marks := st.marks ++ [(t, true)] }
        refine ⟨?_, ?_, ?_, ?_, ?_⟩ <;> simp_all [Except.toOption]

/-- C2: a tile failure never aborts the batch.  Without cancellation,
every selected tile is processed and marked with its own outcome, a failed
tile is recorded as failed while processing continues, the export-path log
and the writer list hold exactly the successful tiles in order, the global
min/max are folded only from the successful tiles, and pass 2 still runs
over exactly those writers. -/
theorem exportSelectedMap_failureIsolation (cancel : ℕ → Bool) (hm : Bool)
    (exportTile : ℕ → Except ℕ TileResult) (writeOk : TileResult → Bool)
    (tiles : List ℕ) (hnc : ∀ n, cancel n = false) :
    (pass1Loop cancel hm exportTile tiles initP1).marks =
      tiles.map (fun t => (t, ((exportTile t).toOption).isSome)) ∧
    (pass1Loop cancel hm exportTile tiles initP1).adtExports =
      tiles.filterMap (fun t => ((exportTile t).toOption).map fun r => (r.outId, t)) ∧
    (pass1Loop cancel hm exportTile tiles initP1).writers =
      (if hm then tiles.filterMap (fun t => (exportTile t).toOption) else []) ∧
    (pass1Loop cancel hm exportTile tiles initP1).gMin =
      (if hm then (tiles.filterMap (fun t => (exportTile t).toOption)).foldl
        (fun m r => R16Writer.updMin m r.minH) none else none) ∧
    (pass1Loop cancel hm exportTile tiles initP1).gMax =
      (if hm then (tiles.filterMap (fun t => (exportTile t).toOption)).foldl
        (fun m r => R16Writer.updMax m r.maxH) none else none) ∧
    (pass2Loop cancel writeOk (pass1Loop cancel hm exportTile tiles initP1).writers
        (pass1Loop cancel hm exportTile tiles initP1).polls []).2 =
      ((pass1Loop cancel hm exportTile tiles initP1).writers).filter writeOk := by
  obtain ⟨h1, h2, h3, h4, h5⟩ := pass1Loop_noCancel cancel hm exportTile hnc tiles initP1
  rw [show initP1.marks = [] from rfl] at h1
  rw [show initP1.adtExports = [] from rfl] at h2
  rw [show initP1.writers = [] from rfl] at h3
  rw [show initP1.gMin = none from rfl] at h4
  rw [show initP1.gMax = none from rfl] at h5
  rw [List.nil_append] at h1 h2 h3
  exact ⟨h1, h2, h3, h4, h5,
    pass2Loop_noCancel cancel writeOk hnc _ _ []⟩

def c2export : ℕ → Except ℕ TileResult := fun t =>
  if t = 10 then Except.ok ⟨1, 2, 100⟩
  else if t = 11 then Except.error 0
  else if t = 12 then Except.ok ⟨-3, 5, 102⟩
  else Except.error 1

/-- Witness for C2: three tiles where the middle one fails.  Tiles 10 and
12 are marked successful and tile 11 failed, the log and writers hold
tiles 10 and 12 only, the global range folds only their extrema, and pass
2 writes both surviving writers. -/
theorem exportSelectedMap_failureIsolation_witness :
    (∀ n, (fun (_ : ℕ) => false) n = false) ∧
    (pass1Loop (fun _ => false) true c2export [10, 11, 12] initP1).marks =
      [(10, true), (11, false), (12, true)] ∧
    (pass1Loop (fun _ => false) true c2export [10, 11, 12] initP1).adtExports =
      [(100, 10), (102, 12)] ∧
    (pass1Loop (fun _ => false) true c2export [10, 11, 12] initP1).writers =
      [⟨1, 2, 100⟩, ⟨-3, 5, 102⟩] ∧
    (pass1Loop (fun _ => false) true c2export [10, 11, 12] initP1).gMin = some (-3) ∧
    (pass1Loop (fun _ => false) true c2export [10, 11, 12] initP1).gMax = some 5 ∧
    (pass2Loop (fun _ => false) (fun _ => true)
        (pass1Loop (fun _ => false) true c2export [10, 11, 12] initP1).writers
        (pass1Loop (fun _ => false) true c2export [10, 11, 12] initP1).polls []).2 =
      [⟨1, 2, 100⟩, ⟨-3, 5, 102⟩] := by
  have h := exportSelectedMap_failureIsolation (fun _ => false) true c2export (fun _ => true)
    [10, 11, 12] (fun _ => rfl)
  refine ⟨fun _ => rfl, ?_, ?_, ?_, ?_, ?_, ?_⟩
  · rw [h.1]
    with_unfolding_all decide
  · rw [h.2.1]
    with_unfolding_all decide
  · rw [h.2.2.1]
    with_unfolding_all decide
  · rw [h.2.2.2.1]
    with_unfolding_all decide
  · rw [h.2.2.2.2.1]
    with_unfolding_all decide
  · rw [h.2.2.2.2.2, h.2.2.1]
    with_unfolding_all decide

/-- C1 (amended): if cancellation is asserted when pass 2 begins, zero
heightmap files are written — but the metadata manifest is still emitted
whenever pass 1 collected at least one writer, because the manifest write
sits inside the `r16Writers.length > 0` block without a cancellation
guard. -/
theorem exportSelectedMap_cancelledBeforePass2 (cancel : ℕ → Bool) (hm : Bool)
    (exportTile : ℕ → Except ℕ TileResult) (writeOk : TileResult → Bool)
    (tiles : List ℕ) (hne : tiles.length ≠ 0)
    (hc : cancel ((pass1Loop cancel hm exportTile tiles initP1).polls) = true) :
    exportSelectedMap cancel hm exportTile writeOk tiles =
      (if 0 < (pass1Loop cancel hm exportTile tiles initP1).writers.length then
        some ⟨[], some ((pass1Loop cancel hm exportTile tiles initP1).writers.length,
          (pass1Loop cancel hm exportTile tiles initP1).gMin,
          (pass1Loop cancel hm exportTile tiles initP1).gMax),
          (pass1Loop cancel hm exportTile tiles initP1).adtExports.map (fun e => e.1),
          (pass1Loop cancel hm exportTile tiles initP1).marks⟩
      else
        some ⟨[], none,
          (pass1Loop cancel hm exportTile tiles initP1).adtExports.map (fun e => e.1),
          (pass1Loop cancel hm exportTile tiles initP1).marks⟩) := by
  unfold exportSelectedMap
  rw [if_neg hne]
  by_cases hw : 0 < (pass1Loop cancel hm exportTile tiles initP1).writers.length
  · rw [if_pos hw, if_pos hw]
    rw [pass2Loop_cancelled cancel writeOk _ _ [] hc]
  · rw [if_neg hw, if_neg hw]

def c1cancel : ℕ → Bool := fun n => decide (1 ≤ n)

def c1export : ℕ → Except ℕ TileResult := fun _ => Except.ok ⟨7, 7, 5⟩

/-- Witness for C1 (amended): one tile, cancellation asserted right after
pass 1.  No heightmap file is written, yet the manifest carrying the tile
count and global range is emitted. -/
theorem exportSelectedMap_cancelledBeforePass2_witness :
    ([0] : List ℕ).length ≠ 0 ∧
    c1cancel ((pass1Loop c1cancel true c1export [0] initP1).polls) = true ∧
    exportSelectedMap c1cancel true c1export (fun _ => true) [0] =
      (if 0 < (pass1Loop c1cancel true c1export [0] initP1).writers.length then
        some ⟨[], some ((pass1Loop c1cancel true c1export [0] initP1).writers.length,
          (pass1Loop c1cancel true c1export [0] initP1).gMin,
          (pass1Loop c1cancel true c1export [0] initP1).gMax),
          (pass1Loop c1cancel true c1export [0] initP1).adtExports.map (fun e => e.1),
          (pass1Loop c1cancel true c1export [0] initP1).marks⟩
      else
        some ⟨[], none,
          (pass1Loop c1cancel true c1export [0] initP1).adtExports.map (fun e => e.1),
          (pass1Loop c1cancel true c1export [0] initP1).marks⟩) :=
  ⟨by decide, by with_unfolding_all decide,
    exportSelectedMap_cancelledBeforePass2 c1cancel true c1export (fun _ => true) [0]
      (by decide) (by with_unfolding_all decide)⟩

/-- Counterexample for C1 as stated: a one-tile job whose pass 1 collects
one writer, with cancellation asserted from the first pass-2 poll onward.
Zero heightmap files are written, but the manifest is still emitted — the
run returns a `some` manifest with tile count 1 and the collected range,
refuting "no manifest file is emitted". -/
theorem exportSelectedMap_cancelled_manifest_cex :
    (∀ n, (pass1Loop c1cancel true c1export [0] initP1).polls ≤ n → c1cancel n = true) ∧
    (pass1Loop c1cancel true c1export [0] initP1).writers.length = 1 ∧
    exportSelectedMap c1cancel true c1export (fun _ => true) [0] =
      some ⟨[], some (1, some 7, some 7), [5], [(0, true)]⟩ ∧
    (some ((1 : ℕ), (some 7 : Option ℚ), (some 7 : Option ℚ)) ≠
      (none : Option (ℕ × Option ℚ × Option ℚ))) := by
  refine ⟨?_, by with_unfolding_all decide, by with_unfolding_all decide, by simp⟩
  intro n hn
  have hp : (pass1Loop c1cancel true c1export [0] initP1).polls = 1 := by
    with_unfolding_all decide
  rw [hp] at hn
  unfold c1cancel
  simpa using hn

end TabMaps
